import Mathlib

/-!
# bloque: a block queue with push/pop of items at the back

A shallow embedding of `src/bloque.go` and the properties of its operations.

Modelling conventions.

* An item is a Go `interface{}` value: `Option α`, with `none` for `nil`.
* A block (`BlockT`, a Go slice made by `make(BlockT, blockSize)`) is a list of
  slots; a fresh block holds `nil` in every slot and its capacity equals its
  length.
* The block chain (`container/list`) is a list of blocks: `Front()` is the
  head and `Back()` is the last element.
* Go `int` fields are `Int`.  The counters only count slots that have been
  allocated, so they stay far below `2^63` and no wrap-around is modelled.
* The operations are modelled on a runtime that allocates every block of
  non-negative length (`makeBlock`): running out of memory while a container is
  in use is not modelled.  When construction itself fails is modelled with the
  bound of the runtime on the length of a slice (`makeBlockWithin`,
  `NewWithin`).
* An operation that can fault at run time (index out of range, slice bounds
  out of range, `make` with a negative length, dereferencing the `nil`
  element of an empty chain) returns `none`; otherwise it returns its Go
  results together with the state it leaves behind.
-/

namespace Bloque

/-- Default block size of the package (`defaultBlockSize`). -/
def defaultBlockSize : Int := 64

/-- The block type: a slice of `interface{}` slots. -/
abbrev BlockT (α : Type) := List (Option α)

/-- The container: `blocks` lists the chain from front to back. -/
structure BloQue (α : Type) where
  blockSize : Int
  maxLength : Int
  maxBlocks : Int
  usedLength : Int
  backIdx : Int
  blocks : List (BlockT α)
deriving DecidableEq, Repr

/-- A construction option (`Option` in the source): a setter on the container. -/
abbrev Setter (α : Type) := BloQue α → BloQue α

variable {α : Type}

/-- Go `make(BlockT, n)`: faults on a negative length, else `n` nil slots. -/
def makeBlock (n : Int) : Option (BlockT α) :=
  if n < 0 then none else some (List.replicate n.toNat none)

/-- Go `blk[i]` as a read: bounds-checked. -/
def readSlot (blk : BlockT α) (i : Int) : Option (Option α) :=
  if 0 ≤ i ∧ i < blk.length then some (blk.getD i.toNat none) else none

/-- Go `blk[i] = v`: bounds-checked. -/
def writeSlot (blk : BlockT α) (i : Int) (v : Option α) : Option (BlockT α) :=
  if 0 ≤ i ∧ i < blk.length then some (blk.set i.toNat v) else none

/-- Go `blk[:n]` on a block whose capacity equals its length. -/
def sliceTo (blk : BlockT α) (n : Int) : Option (BlockT α) :=
  if 0 ≤ n ∧ n ≤ blk.length then some (blk.take n.toNat) else none

/-- The option `BlockSize(blockSize)`. -/
def BlockSize (blockSize : Int) : Setter α :=
  fun blk => { blk with blockSize := blockSize }

/-- The container `newDefault` builds: default options, empty chain. -/
def newDefault : BloQue α :=
  { blockSize := defaultBlockSize
    maxLength := 0
    maxBlocks := 0
    usedLength := 0
    backIdx := 0
    blocks := [] }

/-- The method `newBlock`: `make(BlockT, b.blockSize)`. -/
def newBlock (b : BloQue α) : Option (BlockT α) :=
  makeBlock b.blockSize

/-- The loop `for _, setter := range opt { setter(blk) }`. -/
def applyOptions (opt : List (Setter α)) (blk : BloQue α) : BloQue α :=
  opt.foldl (fun b setter => setter b) blk

/-- The constructor `New`. -/
def New (opt : List (Setter α)) : Option (BloQue α) :=
  let blk := applyOptions opt newDefault
  match newBlock blk with
  | none => none
  | some nb => some { blk with blocks := blk.blocks ++ [nb] }

/-- Go `make(BlockT, n)` on a runtime that allocates no slice longer than `maxLen`
slots: it faults (`makeslice: len out of range`) on a negative length and on a
length above `maxLen`, and returns `n` nil slots otherwise.  The bound is a
constant of the Go runtime, not of this package, so it is a parameter. -/
def makeBlockWithin (maxLen : Nat) (n : Int) : Option (BlockT α) :=
  if n < 0 ∨ (maxLen : Int) < n then none else some (List.replicate n.toNat none)

/-- The constructor `New` on a runtime that allocates no slice longer than
`maxLen` slots. -/
def NewWithin (maxLen : Nat) (opt : List (Setter α)) : Option (BloQue α) :=
  let blk := applyOptions opt newDefault
  match makeBlockWithin maxLen blk.blockSize with
  | none => none
  | some nb => some { blk with blocks := blk.blocks ++ [nb] }

/-- The method `Len`. -/
def BloQue.Len (b : BloQue α) : Int := b.usedLength

/-- The method `NumBlocks`. -/
def BloQue.NumBlocks (b : BloQue α) : Int := b.blocks.length

/-- The first statement of `PushBackItem`: allocate the next block when the
current one is full. -/
def growIfFull (b : BloQue α) : Option (BloQue α) :=
  if b.backIdx = b.blockSize then
    match newBlock b with
    | none => none
    | some nb => some { b with blocks := b.blocks ++ [nb], backIdx := 0 }
  else some b

/-- The method `PushBackItem`. -/
def PushBackItem (b : BloQue α) (item : Option α) : Option (Bool × BloQue α) :=
  match growIfFull b with
  | none => none
  | some b1 =>
    match b1.blocks.getLast? with
    | none => none
    | some block =>
      match writeSlot block b1.backIdx item with
      | none => none
      | some block1 =>
        let b2 : BloQue α :=
          { b1 with
            blocks := b1.blocks.dropLast ++ [block1]
            backIdx := b1.backIdx + 1
            usedLength := b1.usedLength + 1 }
        some (decide (b2.backIdx = b2.blockSize), b2)

/-- The method `PopBackItem`. -/
def PopBackItem (b : BloQue α) : Option ((Option α × Bool) × BloQue α) :=
  if b.usedLength < 1 then some ((none, false), b)
  else
    match b.blocks.getLast? with
    | none => none
    | some blk =>
      let idx := b.backIdx - 1
      match readSlot blk idx, writeSlot blk idx none with
      | some item, some blk1 =>
        let b1 : BloQue α :=
          { b with
            blocks := b.blocks.dropLast ++ [blk1]
            backIdx := idx
            usedLength := b.usedLength - 1 }
        if b1.backIdx = 0 ∧ 1 < b1.blocks.length then
          some ((item, true),
            { b1 with blocks := b1.blocks.dropLast, backIdx := b1.blockSize })
        else some ((item, true), b1)
      | _, _ => none

/-- The method `PeekBackItem`. -/
def PeekBackItem (b : BloQue α) : Option ((Option α × Bool) × BloQue α) :=
  if b.usedLength < 1 then some ((none, false), b)
  else
    match b.blocks.getLast? with
    | none => none
    | some blk =>
      match readSlot blk (b.backIdx - 1) with
      | none => none
      | some item => some ((item, true), b)

/-- The method `PopFrontBlock`; a `nil` block is the empty list. -/
def PopFrontBlock (b : BloQue α) : Option ((BlockT α × Bool) × BloQue α) :=
  if b.usedLength < 1 then some (([], false), b)
  else
    match b.blocks with
    | [] => none
    | blk :: rest =>
      let sliced : Option (BlockT α) :=
        if b.blocks.length = 1 then sliceTo blk b.backIdx else some blk
      match sliced with
      | none => none
      | some out =>
        if rest.length = 0 then
          match newBlock b with
          | none => none
          | some nb =>
            some ((out, true),
              { b with backIdx := 0, usedLength := 0, blocks := rest ++ [nb] })
        else
          some ((out, true),
            { b with usedLength := b.usedLength - b.blockSize, blocks := rest })

/-- Push the items of a list in order, collecting the returned signals. -/
def pushItems : BloQue α → List (Option α) → Option (List Bool × BloQue α)
  | b, [] => some ([], b)
  | b, x :: xs =>
    match PushBackItem b x with
    | none => none
    | some (r, b1) =>
      match pushItems b1 xs with
      | none => none
      | some (rs, b2) => some (r :: rs, b2)

/-- Call `PopBackItem` a given number of times, collecting the results. -/
def popBackItems : Nat → BloQue α → Option (List (Option α × Bool) × BloQue α)
  | 0, b => some ([], b)
  | n + 1, b =>
    match PopBackItem b with
    | none => none
    | some (r, b1) =>
      match popBackItems n b1 with
      | none => none
      | some (rs, b2) => some (r :: rs, b2)

/-- Call `PopFrontBlock` until it reports `found == false`, collecting the
blocks returned with `found == true`.  The first argument bounds the number of
calls; `none` means a fault or that the bound was reached. -/
def popFrontBlocks : Nat → BloQue α → Option (List (BlockT α) × BloQue α)
  | 0, _ => none
  | fuel + 1, b =>
    match PopFrontBlock b with
    | none => none
    | some ((_, false), b1) => some ([], b1)
    | some ((blk, true), b1) =>
      match popFrontBlocks fuel b1 with
      | none => none
      | some (blks, b2) => some (blk :: blks, b2)

/-- The states a container built by `New(BlockSize(bs))` can be in: the fresh
container, and whatever any of the four operations leaves behind. -/
inductive Reachable (bs : Int) : BloQue α → Prop
  | fresh {s : BloQue α} : New [BlockSize bs] = some s → Reachable bs s
  | push {s t : BloQue α} {x : Option α} {r : Bool} :
      Reachable bs s → PushBackItem s x = some (r, t) → Reachable bs t
  | popBack {s t : BloQue α} {r : Option α × Bool} :
      Reachable bs s → PopBackItem s = some (r, t) → Reachable bs t
  | peekBack {s t : BloQue α} {r : Option α × Bool} :
      Reachable bs s → PeekBackItem s = some (r, t) → Reachable bs t
  | popFront {s t : BloQue α} {r : BlockT α × Bool} :
      Reachable bs s → PopFrontBlock s = some (r, t) → Reachable bs t

/-- The live items in push order: every block but the back-most in full, then
the first `backIdx` slots of the back-most block. -/
def contents (b : BloQue α) : List (Option α) :=
  b.blocks.dropLast.flatten ++ (b.blocks.getLast?.getD []).take b.backIdx.toNat


/-- Two's-complement wrap-around of a Go `int` (64 bits). -/
def wrapInt (x : Int) : Int := (x + 2 ^ 63) % 2 ^ 64 - 2 ^ 63

/-- Go `a / b` on `int`: faults on a zero divisor, truncates toward zero. -/
def goDiv (a b : Int) : Option Int :=
  if b = 0 then none else some (wrapInt (a.tdiv b))

/-- Go `a * b` on `int`. -/
def goMul (a b : Int) : Int := wrapInt (a * b)

/-- The constructor `NewWithMaxLength`.  Its first parameter (`maxLength` in the
source) is never read by the body: `maxBlocks` is computed from the field
`blk.maxLength` as the options left it. -/
def NewWithMaxLength (_maxLength : Int) (opt : List (Setter α)) : Option (BloQue α) :=
  let blk := applyOptions opt newDefault
  match goDiv blk.maxLength blk.blockSize with
  | none => none
  | some q =>
    let blk1 : BloQue α := { blk with maxBlocks := q }
    match newBlock blk1 with
    | none => none
    | some nb => some { blk1 with blocks := blk1.blocks ++ [nb] }

/-- The constructor `NewWithMaxBlocks`.  Its first parameter (`maxBlocks` in the
source) is never read by the body: `maxLength` is computed from the field
`blk.maxBlocks` as the options left it. -/
def NewWithMaxBlocks (_maxBlocks : Int) (opt : List (Setter α)) : Option (BloQue α) :=
  let blk := applyOptions opt newDefault
  let blk1 : BloQue α := { blk with maxLength := goMul blk.maxBlocks blk.blockSize }
  match newBlock blk1 with
  | none => none
  | some nb => some { blk1 with blocks := blk1.blocks ++ [nb] }

/-- A call of one of the six public methods. -/
inductive Op (α : Type) where
  | pushBackItem (item : Option α)
  | popBackItem
  | peekBackItem
  | popFrontBlock
  | len
  | numBlocks
deriving DecidableEq, Repr

/-- What a call answers. -/
inductive Answer (α : Type) where
  | signal (full : Bool)
  | item (value : Option α) (found : Bool)
  | block (blk : BlockT α) (found : Bool)
  | count (n : Int)
deriving DecidableEq, Repr

/-- Carry out one call: its answer and the state it leaves. -/
def applyOp (b : BloQue α) : Op α → Option (Answer α × BloQue α)
  | Op.pushBackItem x =>
    match PushBackItem b x with
    | none => none
    | some (r, b1) => some (Answer.signal r, b1)
  | Op.popBackItem =>
    match PopBackItem b with
    | none => none
    | some ((x, found), b1) => some (Answer.item x found, b1)
  | Op.peekBackItem =>
    match PeekBackItem b with
    | none => none
    | some ((x, found), b1) => some (Answer.item x found, b1)
  | Op.popFrontBlock =>
    match PopFrontBlock b with
    | none => none
    | some ((blk, found), b1) => some (Answer.block blk found, b1)
  | Op.len => some (Answer.count b.Len, b)
  | Op.numBlocks => some (Answer.count b.NumBlocks, b)

/-- Carry out a sequence of calls, collecting the answers. -/
def runOps : BloQue α → List (Op α) → Option (List (Answer α) × BloQue α)
  | b, [] => some ([], b)
  | b, op :: ops =>
    match applyOp b op with
    | none => none
    | some (a, b1) =>
      match runOps b1 ops with
      | none => none
      | some (as, b2) => some (a :: as, b2)

/-- Overwrite the two capacity fields. -/
def setCaps (maxLength maxBlocks : Int) (b : BloQue α) : BloQue α :=
  { b with maxLength := maxLength, maxBlocks := maxBlocks }

/-- Example state: block size 2 after pushing the items 1, 2, 3. -/
def exampleState : BloQue Nat :=
  { blockSize := 2, maxLength := 0, maxBlocks := 0, usedLength := 3, backIdx := 1,
    blocks := [[some 1, some 2], [some 3, none]] }

/-- Example state: `exampleState` drained by one `PopFrontBlock` and one
`PopBackItem`. -/
def drainedState : BloQue Nat :=
  { blockSize := 2, maxLength := 0, maxBlocks := 0, usedLength := 0, backIdx := 0,
    blocks := [[none, none]] }

/-- Example state: `exampleState` right after a `PopBackItem` that removed the
emptied back block. -/
def poppedState : BloQue Nat :=
  { blockSize := 2, maxLength := 0, maxBlocks := 0, usedLength := 2, backIdx := 2,
    blocks := [[some 1, some 2]] }

/-- The container `New(BlockSize(0))` returns. -/
def zeroSizeState : BloQue Nat :=
  { blockSize := 0, maxLength := 0, maxBlocks := 0, usedLength := 0, backIdx := 0,
    blocks := [[]] }

/-- Every slot of the back-most block at an index `≥ backIdx` holds `nil`. -/
def NilTail (s : BloQue α) : Prop :=
  ∀ blk, s.blocks.getLast? = some blk →
    ∀ i : Nat, s.backIdx.toNat ≤ i → blk.getD i none = none

/-- The representation invariant of a container of block size `bs`. -/
structure Inv (bs : Int) (s : BloQue α) : Prop where
  bsPos : 1 ≤ bs
  size : s.blockSize = bs
  nonempty : s.blocks ≠ []
  blockLen : ∀ blk ∈ s.blocks, (blk.length : Int) = bs
  idxLo : 0 ≤ s.backIdx
  idxHi : s.backIdx ≤ bs
  idxPos : 1 < s.blocks.length → 1 ≤ s.backIdx
  used : s.usedLength = ((s.blocks.length : Int) - 1) * bs + s.backIdx

theorem New_blockSize (bs : Int) (h : 0 ≤ bs) :
    New [BlockSize bs] =
      some ({ blockSize := bs, maxLength := 0, maxBlocks := 0, usedLength := 0,
              backIdx := 0, blocks := [List.replicate bs.toNat none] } : BloQue α) := by
  have h1 : ¬ bs < 0 := by omega
  simp [New, applyOptions, BlockSize, newDefault, newBlock, makeBlock, h1]

theorem inv_fresh (bs : Int) (h : 1 ≤ bs) :
    Inv bs ({ blockSize := bs, maxLength := 0, maxBlocks := 0, usedLength := 0,
              backIdx := 0, blocks := [List.replicate bs.toNat none] } : BloQue α) := by
  refine ⟨h, rfl, by simp, ?_, le_refl _, by simp; omega, by simp, by simp⟩
  intro blk hb
  simp at hb
  subst hb
  simp
  omega

theorem inv_shape {bs : Int} {s : BloQue α} (h : Inv bs s) :
    ∃ front back, s.blocks = front ++ [back] := by
  rcases List.eq_nil_or_concat s.blocks with h0 | ⟨front, back, h1⟩
  · exact absurd h0 h.nonempty
  · exact ⟨front, back, by simpa using h1⟩

theorem take_succ_set (l : List (Option α)) (i : Nat) (x : Option α) (h : i < l.length) :
    List.take (i + 1) (l.set i x) = List.take i l ++ [x] := by
  induction l generalizing i with
  | nil => simp at h
  | cons a l ih =>
    cases i with
    | zero => simp
    | succ i =>
      simp only [List.length_cons, Nat.add_lt_add_iff_right] at h
      simp [ih i h]

theorem push_spec {bs : Int} {s : BloQue α} (h : Inv bs s) (x : Option α) :
    ∃ t, PushBackItem s x = some (decide (t.backIdx = bs), t) ∧ Inv bs t ∧
      1 ≤ t.backIdx ∧ contents t = contents s ++ [x] ∧
      t.usedLength = s.usedLength + 1 := by
  obtain ⟨front, back, hfb⟩ := inv_shape h
  obtain ⟨bsPos, size, -, blockLen, idxLo, idxHi, idxPos, used⟩ := h
  obtain ⟨blockSize, maxLength, maxBlocks, usedLength, backIdx, blocks⟩ := s
  simp only at size hfb blockLen idxLo idxHi idxPos used
  subst size hfb
  have hback : (back.length : Int) = blockSize := blockLen back (by simp)
  by_cases hfull : backIdx = blockSize
  · subst hfull
    have h1 : ¬ backIdx < 0 := by omega
    have h2 : 0 < backIdx.toNat := by omega
    refine ⟨{ blockSize := backIdx, maxLength := maxLength, maxBlocks := maxBlocks,
              usedLength := usedLength + 1, backIdx := 0 + 1,
              blocks := (front ++ [back]) ++
                [(List.replicate backIdx.toNat none).set (0 : Int).toNat x] }, ?_, ?_, ?_, ?_, rfl⟩
    · have h4 : 0 < backIdx := by omega
      simp [PushBackItem, growIfFull, newBlock, makeBlock, writeSlot, h1, h4]
    · refine ⟨bsPos, rfl, by simp, ?_, by simp, by simpa using bsPos, by simp, ?_⟩
      · intro blk hb
        simp only [List.mem_append, List.mem_singleton] at hb
        rcases hb with hb | hb
        · exact blockLen blk (by simpa using hb)
        · subst hb
          simp
          omega
      · simp only [List.length_append, List.length_singleton] at used ⊢
        push_cast at used ⊢
        rw [used]
        ring
    · simp
    · have h3 : back.length = backIdx.toNat := by omega
      have h5 : List.take backIdx.toNat back = back := List.take_of_length_le (by omega)
      have h6 : List.take 1 ((List.replicate backIdx.toNat (none : Option α)).set 0 x) = [x] := by
        cases hn : backIdx.toNat with
        | zero => omega
        | succ n => simp [List.replicate_succ]
      simp [contents, List.dropLast_concat, List.getLast?_concat, h5, h6]
  · have h1 : 0 ≤ backIdx ∧ backIdx < (back.length : Int) := by omega
    refine ⟨{ blockSize := blockSize, maxLength := maxLength, maxBlocks := maxBlocks,
              usedLength := usedLength + 1, backIdx := backIdx + 1,
              blocks := front ++ [back.set backIdx.toNat x] }, ?_, ?_, ?_, ?_, rfl⟩
    · simp [PushBackItem, growIfFull, hfull, writeSlot, h1]
    · refine ⟨bsPos, rfl, by simp, ?_, by simp; omega, by simp; omega, by simp; omega, ?_⟩
      · intro blk hb
        simp only [List.mem_append, List.mem_singleton] at hb
        rcases hb with hb | hb
        · exact blockLen blk (by simp [hb])
        · subst hb
          simpa using hback
      · simp only [List.length_append, List.length_singleton] at used ⊢
        rw [used]
        ring
    · simp; omega
    · have h2 : (backIdx + 1).toNat = backIdx.toNat + 1 := by omega
      simp [contents, h2, take_succ_set back backIdx.toNat x (by omega)]

theorem take_set_self (l : List (Option α)) (i : Nat) (x : Option α) :
    List.take i (l.set i x) = List.take i l := by
  induction l generalizing i with
  | nil => simp
  | cons a l ih =>
    cases i with
    | zero => simp
    | succ i => simp [ih i]

theorem take_succ_getD (l : List (Option α)) (i : Nat) (h : i < l.length) :
    List.take (i + 1) l = List.take i l ++ [l.getD i none] := by
  induction l generalizing i with
  | nil => simp at h
  | cons a l ih =>
    cases i with
    | zero => simp
    | succ i =>
      simp only [List.length_cons, Nat.add_lt_add_iff_right] at h
      simpa using ih i h

theorem flatten_dropLast_take {bs : Int} (front : List (BlockT α)) (hne : front ≠ [])
    (hlen : ∀ blk ∈ front, (blk.length : Int) = bs) :
    front.dropLast.flatten ++ (front.getLast?.getD []).take bs.toNat = front.flatten := by
  rcases List.eq_nil_or_concat front with h0 | ⟨f, l, h1⟩
  · exact absurd h0 hne
  · have h2 : front = f ++ [l] := by simpa using h1
    subst h2
    have h3 : (l.length : Int) = bs := hlen l (by simp)
    simp [List.take_of_length_le (show l.length ≤ bs.toNat by omega)]

theorem popBack_spec {bs : Int} {s : BloQue α} (h : Inv bs s) (hu : 1 ≤ s.usedLength) :
    ∃ x t, PopBackItem s = some ((x, true), t) ∧ Inv bs t ∧
      contents s = contents t ++ [x] ∧ t.usedLength = s.usedLength - 1 ∧
      PeekBackItem s = some ((x, true), s) := by
  obtain ⟨front, back, hfb⟩ := inv_shape h
  obtain ⟨bsPos, size, -, blockLen, idxLo, idxHi, idxPos, used⟩ := h
  obtain ⟨blockSize, maxLength, maxBlocks, usedLength, backIdx, blocks⟩ := s
  simp only at size hfb blockLen idxLo idxHi idxPos used hu
  subst size hfb
  have hback : (back.length : Int) = blockSize := blockLen back (by simp)
  have hu1 : ¬ usedLength < 1 := by omega
  have hidx : 1 ≤ backIdx := by
    rcases front with _ | ⟨f, fs⟩
    · simp at used; omega
    · exact idxPos (by simp)
  have hrange : 0 ≤ backIdx - 1 ∧ backIdx - 1 < (back.length : Int) := by omega
  have hnat : backIdx.toNat = (backIdx - 1).toNat + 1 := by omega
  have hlt : (backIdx - 1).toNat < back.length := by omega
  by_cases hrm : backIdx - 1 = 0 ∧ front ≠ []
  · obtain ⟨hz, hne⟩ := hrm
    have hlen1 : 1 < (front ++ [back.set (backIdx - 1).toNat none]).length := by
      have : 0 < front.length := List.length_pos.mpr hne
      simp; omega
    refine ⟨back.getD (backIdx - 1).toNat none,
      { blockSize := blockSize, maxLength := maxLength, maxBlocks := maxBlocks,
        usedLength := usedLength - 1, backIdx := blockSize, blocks := front }, ?_, ?_, ?_, rfl, ?_⟩
    · simp only [PopBackItem, hu1, if_false, List.getLast?_concat, readSlot, writeSlot, hrange,
        and_self, if_true, List.dropLast_concat]
      rw [if_pos ⟨hz, hlen1⟩]
    · have hpos : 0 < front.length := List.length_pos.mpr hne
      refine ⟨bsPos, rfl, hne, fun blk hb => blockLen blk (by simp [hb]), by simp; omega,
        le_refl _, fun _ => bsPos, ?_⟩
      simp only [List.length_append, List.length_singleton] at used ⊢
      push_cast at used
      rw [used]
      have : backIdx = 1 := by omega
      rw [this]
      ring
    · have hb1 : backIdx.toNat = 1 := by omega
      have hz1 : (backIdx - 1).toNat = 0 := by omega
      have hf := flatten_dropLast_take front hne (fun blk hb => blockLen blk (by simp [hb]))
      simp only [contents, List.dropLast_concat, List.getLast?_concat, Option.getD_some, hf]
      rw [hnat, take_succ_getD back _ hlt, hz1]
      simp
    · simp [PeekBackItem, hu1, readSlot, hrange]
  · have hcond : ¬ (backIdx - 1 = 0 ∧ 1 < (front ++ [back.set (backIdx - 1).toNat none]).length) := by
      intro hc
      apply hrm
      refine ⟨hc.1, ?_⟩
      intro hnil
      subst hnil
      simp at hc
    refine ⟨back.getD (backIdx - 1).toNat none,
      { blockSize := blockSize, maxLength := maxLength, maxBlocks := maxBlocks,
        usedLength := usedLength - 1, backIdx := backIdx - 1,
        blocks := front ++ [back.set (backIdx - 1).toNat none] }, ?_, ?_, ?_, rfl, ?_⟩
    · simp only [PopBackItem, hu1, if_false, List.getLast?_concat, readSlot, writeSlot, hrange,
        and_self, if_true, List.dropLast_concat]
      rw [if_neg hcond]
    · refine ⟨bsPos, rfl, by simp, ?_, by simp; omega, by simp; omega, ?_, ?_⟩
      · intro blk hb
        simp only [List.mem_append, List.mem_singleton] at hb
        rcases hb with hb | hb
        · exact blockLen blk (by simp [hb])
        · subst hb
          simpa using hback
      · intro hl
        simp only
        by_contra hcon
        apply hrm
        refine ⟨by omega, ?_⟩
        intro hnil
        subst hnil
        simp at hl
      · simp only [List.length_append, List.length_singleton] at used ⊢
        rw [used]
        ring
    · simp only [contents, List.dropLast_concat, List.getLast?_concat, Option.getD_some]
      rw [hnat, take_succ_getD back _ hlt, take_set_self]
      simp
    · simp [PeekBackItem, hu1, readSlot, hrange]

theorem popFront_spec {bs : Int} {s : BloQue α} (h : Inv bs s) (hu : 1 ≤ s.usedLength) :
    ∃ blk t, PopFrontBlock s = some ((blk, true), t) ∧ Inv bs t ∧
      contents s = blk ++ contents t ∧ (blk.length : Int) = min bs s.usedLength ∧
      t.usedLength = s.usedLength - blk.length ∧
      (s.blocks.length = 1 →
        t.usedLength = 0 ∧ (blk.length : Int) = s.backIdx ∧ t.blocks.length = 1) ∧
      (1 < s.blocks.length →
        t.blocks.length + 1 = s.blocks.length ∧ t.backIdx = s.backIdx ∧
        (blk.length : Int) = bs ∧ 1 ≤ t.usedLength) := by
  obtain ⟨bsPos, size, nonempty, blockLen, idxLo, idxHi, idxPos, used⟩ := h
  obtain ⟨blockSize, maxLength, maxBlocks, usedLength, backIdx, blocks⟩ := s
  simp only at size nonempty blockLen idxLo idxHi idxPos used hu
  subst size
  have hu1 : ¬ usedLength < 1 := by omega
  have hbs : ¬ blockSize < 0 := by omega
  rcases blocks with _ | ⟨blk, rest⟩
  · exact absurd rfl nonempty
  · have hblk : (blk.length : Int) = blockSize := blockLen blk (by simp)
    rcases rest with _ | ⟨r, rs⟩
    · simp only [List.length_singleton, Nat.cast_one, sub_self, zero_mul, zero_add] at used
      subst used
      have hsl : 0 ≤ usedLength ∧ usedLength ≤ (blk.length : Int) := by omega
      refine ⟨blk.take usedLength.toNat,
        { blockSize := blockSize, maxLength := maxLength, maxBlocks := maxBlocks,
          usedLength := 0, backIdx := 0,
          blocks := [List.replicate blockSize.toNat none] }, ?_, ?_, ?_, ?_, ?_, ?_, ?_⟩
      · simp [PopFrontBlock, hu1, sliceTo, hsl, newBlock, makeBlock, hbs]
      · refine ⟨bsPos, rfl, by simp, ?_, le_refl _, by simp; omega, by simp, by simp⟩
        intro b hb
        simp only [List.mem_singleton] at hb
        subst hb
        simp
        omega
      · simp [contents]
      · simp only [List.length_take]
        omega
      · simp only [List.length_take]
        omega
      · intro _
        refine ⟨rfl, ?_, rfl⟩
        simp only [List.length_take]
        omega
      · intro hl
        simp at hl
    · have h1 : 1 ≤ backIdx := idxPos (by simp)
      simp only [List.length_cons] at used
      push_cast at used
      have hnn : (0 : Int) ≤ (rs.length : Int) * blockSize :=
        mul_nonneg (Int.ofNat_nonneg _) (by omega)
      have hused : usedLength = blockSize + ((rs.length : Int) * blockSize + backIdx) := by
        rw [used]
        ring
      refine ⟨blk,
        { blockSize := blockSize, maxLength := maxLength, maxBlocks := maxBlocks,
          usedLength := usedLength - blockSize, backIdx := backIdx,
          blocks := r :: rs }, ?_, ?_, ?_, ?_, ?_, ?_, ?_⟩
      · simp [PopFrontBlock, hu1]
      · refine ⟨bsPos, rfl, by simp, fun b hb => blockLen b (List.mem_cons_of_mem _ hb),
          idxLo, idxHi, fun _ => h1, ?_⟩
        simp only [List.length_cons]
        push_cast
        rw [hused]
        ring
      · simp only [contents]
        rw [List.dropLast_cons_of_ne_nil (by simp)]
        simp [List.getLast?_cons_cons]
      · rw [hblk]
        simp only
        omega
      · simp only
        omega
      · intro hl
        simp at hl
      · intro _
        refine ⟨by simp, rfl, hblk, ?_⟩
        simp only
        omega

theorem flatten_length_uniform {bs : Int} (l : List (BlockT α))
    (hlen : ∀ blk ∈ l, (blk.length : Int) = bs) :
    (l.flatten.length : Int) = (l.length : Int) * bs := by
  induction l with
  | nil => simp
  | cons a l ih =>
    have ha : (a.length : Int) = bs := hlen a (by simp)
    have hl := ih (fun blk hb => hlen blk (List.mem_cons_of_mem _ hb))
    simp only [List.flatten_cons, List.length_append, List.length_cons]
    push_cast
    rw [hl, ha]
    ring

theorem contents_length {bs : Int} {s : BloQue α} (h : Inv bs s) :
    ((contents s).length : Int) = s.usedLength := by
  obtain ⟨front, back, hfb⟩ := inv_shape h
  have hback : (back.length : Int) = bs := h.blockLen back (by simp [hfb])
  have hfront := flatten_length_uniform front (fun blk hb => h.blockLen blk (by simp [hfb, hb]))
  have hlo := h.idxLo
  have hhi := h.idxHi
  rw [h.used]
  have htake : ((List.take s.backIdx.toNat back).length : Int) = s.backIdx := by
    rw [List.length_take]
    omega
  simp only [contents, hfb, List.dropLast_concat, List.getLast?_concat, Option.getD_some,
    List.length_append, List.length_singleton]
  push_cast
  rw [hfront, htake]
  ring

theorem popBack_empty {s : BloQue α} (hu : s.usedLength < 1) :
    PopBackItem s = some ((none, false), s) := by
  simp [PopBackItem, hu]

theorem peekBack_empty {s : BloQue α} (hu : s.usedLength < 1) :
    PeekBackItem s = some ((none, false), s) := by
  simp [PeekBackItem, hu]

theorem popFront_empty {s : BloQue α} (hu : s.usedLength < 1) :
    PopFrontBlock s = some (([], false), s) := by
  simp [PopFrontBlock, hu]

theorem peekBack_state {s t : BloQue α} {r : Option α × Bool}
    (h : PeekBackItem s = some (r, t)) : t = s := by
  unfold PeekBackItem at h
  split at h
  · simp only [Option.some.injEq, Prod.mk.injEq] at h
    exact h.2.symm
  · split at h
    · simp at h
    · split at h
      · simp at h
      · simp only [Option.some.injEq, Prod.mk.injEq] at h
        exact h.2.symm

theorem reachable_inv {bs : Int} (hbs : 1 ≤ bs) {s : BloQue α} (h : Reachable bs s) :
    Inv bs s := by
  induction h with
  | fresh hnew =>
    rw [New_blockSize bs (by omega)] at hnew
    simp only [Option.some.injEq] at hnew
    subst hnew
    exact inv_fresh bs hbs
  | @push s t x r _ hstep ih =>
    obtain ⟨t1, h1, hinv, -⟩ := push_spec ih x
    rw [h1] at hstep
    simp only [Option.some.injEq, Prod.mk.injEq] at hstep
    rw [← hstep.2]
    exact hinv
  | @popBack s t r _ hstep ih =>
    by_cases hu : s.usedLength < 1
    · rw [popBack_empty hu] at hstep
      simp only [Option.some.injEq, Prod.mk.injEq] at hstep
      rw [← hstep.2]
      exact ih
    · obtain ⟨x, t1, h1, hinv, -⟩ := popBack_spec ih (by omega)
      rw [h1] at hstep
      simp only [Option.some.injEq, Prod.mk.injEq] at hstep
      rw [← hstep.2]
      exact hinv
  | @peekBack s t r _ hstep ih =>
    rw [peekBack_state hstep]
    exact ih
  | @popFront s t r _ hstep ih =>
    by_cases hu : s.usedLength < 1
    · rw [popFront_empty hu] at hstep
      simp only [Option.some.injEq, Prod.mk.injEq] at hstep
      rw [← hstep.2]
      exact ih
    · obtain ⟨blk, t1, h1, hinv, -⟩ := popFront_spec ih (by omega)
      rw [h1] at hstep
      simp only [Option.some.injEq, Prod.mk.injEq] at hstep
      rw [← hstep.2]
      exact hinv

theorem full_iff_multiple {bs : Int} {s : BloQue α} (h : Inv bs s) (h1 : 1 ≤ s.backIdx) :
    s.backIdx = bs ↔ s.usedLength % bs = 0 := by
  have hbs := h.bsPos
  have hhi := h.idxHi
  have hmod : s.usedLength % bs = s.backIdx % bs := by
    rw [h.used, add_comm]
    exact Int.add_mul_emod_self
  rw [hmod]
  constructor
  · intro he
    rw [he]
    exact Int.emod_self
  · intro hz
    by_contra hne
    have hlt : s.backIdx < bs := by omega
    rw [Int.emod_eq_of_lt (by omega) hlt] at hz
    omega

theorem pushItems_spec {bs : Int} (xs : List (Option α)) {s : BloQue α} (h : Inv bs s) :
    ∃ t, pushItems s xs =
        some ((List.range xs.length).map
          (fun (i : Nat) => decide ((s.usedLength + (i : Int) + 1) % bs = 0)), t) ∧
      Inv bs t ∧ contents t = contents s ++ xs ∧
      t.usedLength = s.usedLength + xs.length := by
  induction xs generalizing s with
  | nil => exact ⟨s, by simp [pushItems], h, by simp, by simp⟩
  | cons x xs ih =>
    obtain ⟨t1, hpush, hinv1, hidx1, hc1, hu1⟩ := push_spec h x
    obtain ⟨t2, hrest, hinv2, hc2, hu2⟩ := ih hinv1
    refine ⟨t2, ?_, hinv2, ?_, ?_⟩
    · have hsig : decide (t1.backIdx = bs) = decide ((s.usedLength + 1) % bs = 0) := by
        rw [decide_eq_decide, full_iff_multiple hinv1 hidx1, hu1]
      simp only [pushItems, hpush, hrest, List.length_cons, List.range_succ_eq_map,
        List.map_cons, List.map_map, hsig, hu1]
      congr 3
      · simp
      · apply List.map_congr_left
        intro i _
        simp only [Function.comp_apply, Nat.cast_succ]
        congr 2
        ring_nf
    · rw [hc2, hc1]
      simp
    · rw [hu2, hu1]
      simp only [List.length_cons]
      push_cast
      ring

theorem popBackItems_spec {bs : Int} (xs : List (Option α)) {s : BloQue α} (h : Inv bs s)
    (pre : List (Option α)) (hc : contents s = pre ++ xs) :
    ∃ t, popBackItems xs.length s = some (xs.reverse.map (fun x => (x, true)), t) ∧
      Inv bs t ∧ contents t = pre := by
  induction xs using List.reverseRecOn generalizing s with
  | nil => exact ⟨s, by simp [popBackItems], h, by simpa using hc⟩
  | append_singleton xs x ih =>
    have hlen := contents_length h
    have hu : 1 ≤ s.usedLength := by
      rw [← hlen, hc]
      simp only [List.length_append, List.length_singleton]
      push_cast
      omega
    obtain ⟨y, t1, hpop, hinv1, hc1, -, -⟩ := popBack_spec h hu
    have hsplit : contents t1 ++ [y] = (pre ++ xs) ++ [x] := by
      rw [← hc1, hc, List.append_assoc]
    obtain ⟨hpre, hy⟩ := List.append_inj_left' hsplit rfl, List.append_inj_right' hsplit rfl
    simp only [List.cons.injEq, and_true] at hy
    subst hy
    obtain ⟨t2, hrest, hinv2, hc2⟩ := ih hinv1 hpre
    refine ⟨t2, ?_, hinv2, hc2⟩
    simp [popBackItems, hpop, hrest]

theorem popFrontBlocks_spec {bs : Int} (n : Nat) {s : BloQue α} (h : Inv bs s)
    (hn : s.blocks.length = n) (hu : 1 ≤ s.usedLength) :
    ∃ blks t, (∀ fuel, n + 1 ≤ fuel → popFrontBlocks fuel s = some (blks, t)) ∧
      blks.flatten = contents s ∧
      blks.length = n ∧ (∀ blk ∈ blks.dropLast, (blk.length : Int) = bs) ∧
      (∃ l, blks.getLast? = some l ∧ (l.length : Int) = s.backIdx) ∧
      t.usedLength = 0 ∧ t.blocks.length = 1 ∧ Inv bs t := by
  induction n generalizing s with
  | zero =>
    exact absurd (List.length_eq_zero.mp hn) h.nonempty
  | succ n ih =>
    obtain ⟨blk, t1, hpop, hinv1, hc1, -, -, hone, hmany⟩ := popFront_spec h hu
    by_cases h1 : s.blocks.length = 1
    · obtain ⟨hu0, hbl, hl1⟩ := hone h1
      have hempty : contents t1 = [] := by
        have := contents_length hinv1
        rw [hu0] at this
        exact List.length_eq_zero.mp (by exact_mod_cast this)
      refine ⟨[blk], t1, ?_, ?_, by simp; omega, by simp, ⟨blk, rfl, hbl⟩, hu0, hl1, hinv1⟩
      · intro fuel hf
        obtain ⟨g, rfl⟩ : ∃ g, fuel = g + 1 + 1 := ⟨fuel - 2, by omega⟩
        simp [popFrontBlocks, hpop, popFront_empty (show t1.usedLength < 1 by omega)]
      · rw [hc1, hempty]
        simp
    · obtain ⟨hlen, hidx, hbl, hu1⟩ := hmany (by omega)
      obtain ⟨blks, t, hrest, hflat, hblen, hfull, ⟨l, hlast, hll⟩, hu0, hl1, hinv⟩ :=
        ih hinv1 (by omega) hu1
      have hne : blks ≠ [] := by
        intro hnil
        rw [hnil] at hlast
        simp at hlast
      refine ⟨blk :: blks, t, ?_, ?_, by simp [hblen], ?_, ⟨l, ?_, by rw [hll, hidx]⟩,
        hu0, hl1, hinv⟩
      · intro fuel hf
        obtain ⟨f, rfl⟩ : ∃ f, fuel = f + 1 := ⟨fuel - 1, by omega⟩
        simp [popFrontBlocks, hpop, hrest f (by omega)]
      · rw [hc1, ← hflat]
        simp
      · intro b hb
        rw [List.dropLast_cons_of_ne_nil hne] at hb
        rcases List.mem_cons.mp hb with hb | hb
        · rw [hb]
          exact hbl
        · exact hfull b hb
      · rcases blks with _ | ⟨b, rest⟩
        · exact absurd rfl hne
        · rw [List.getLast?_cons_cons]
          exact hlast

theorem blocks_count {bs : Int} {s : BloQue α} (h : Inv bs s) (hu : 1 ≤ s.usedLength) :
    (s.blocks.length : Int) = (s.usedLength + bs - 1) / bs ∧ 1 ≤ s.backIdx ∧
      s.backIdx = if s.usedLength % bs = 0 then bs else s.usedLength % bs := by
  have hbs := h.bsPos
  have hhi := h.idxHi
  have hused := h.used
  have hidx : 1 ≤ s.backIdx := by
    by_cases hl : 1 < s.blocks.length
    · exact h.idxPos hl
    · have hpos : 0 < s.blocks.length := List.length_pos.mpr h.nonempty
      have h1 : s.blocks.length = 1 := by omega
      rw [h1] at hused
      simp at hused
      omega
  refine ⟨?_, hidx, ?_⟩
  · have hsum : s.usedLength + bs - 1 = (s.backIdx - 1) + (s.blocks.length : Int) * bs := by
      rw [hused]
      ring
    rw [hsum, Int.add_mul_ediv_right _ _ (by omega), Int.ediv_eq_zero_of_lt (by omega) (by omega)]
    simp
  · have hmod : s.usedLength % bs = s.backIdx % bs := by
      rw [hused, add_comm]
      exact Int.add_mul_emod_self
    by_cases hfull : s.backIdx = bs
    · rw [if_pos ((full_iff_multiple h hidx).mp hfull)]
      exact hfull
    · rw [if_neg (fun hz => hfull ((full_iff_multiple h hidx).mpr hz)), hmod,
        Int.emod_eq_of_lt (by omega) (by omega)]

theorem fresh_state {bs : Int} (hbs : 1 ≤ bs) :
    ∃ s0 : BloQue α, New [BlockSize bs] = some s0 ∧ Inv bs s0 ∧ contents s0 = [] ∧
      s0.usedLength = 0 :=
  ⟨_, New_blockSize bs (by omega), inv_fresh bs hbs, by simp [contents], rfl⟩

theorem empty_single_block {bs : Int} {s : BloQue α} (h : Inv bs s) (h0 : s.usedLength = 0) :
    s.blocks.length = 1 ∧ s.backIdx = 0 := by
  have hpos : 0 < s.blocks.length := List.length_pos.mpr h.nonempty
  have hlo := h.idxLo
  have hbs := h.bsPos
  have hused := h.used
  by_cases hl : 1 < s.blocks.length
  · have h1 := h.idxPos hl
    have hnn : (0 : Int) ≤ ((s.blocks.length : Int) - 1) * bs :=
      mul_nonneg (by omega) (by omega)
    omega
  · have h1 : s.blocks.length = 1 := by omega
    rw [h1] at hused
    simp at hused
    exact ⟨h1, by omega⟩

/-- Claim C1: push/pop inverse law.  For every block size `bs ≥ 1` and every item
sequence `xs`, `New(BlockSize(bs))` succeeds, pushing `xs` in order succeeds, and
then `xs.length` calls of `PopBackItem` return the items in reverse order, each
with `found = true`; afterwards `Len() = 0`, `NumBlocks() = 1`, and one more
`PopBackItem` returns `found = false`. -/
theorem push_pop_inverse (bs : Int) (hbs : 1 ≤ bs) (xs : List (Option α)) :
    ∃ s0 sig s1 s2 r s3,
      New [BlockSize bs] = some s0 ∧
      pushItems s0 xs = some (sig, s1) ∧
      popBackItems xs.length s1 = some (xs.reverse.map (fun x => (x, true)), s2) ∧
      s2.Len = 0 ∧ s2.NumBlocks = 1 ∧
      PopBackItem s2 = some ((r, false), s3) := by
  obtain ⟨s0, hnew, hinv0, hc0, -⟩ := fresh_state (α := α) hbs
  obtain ⟨s1, hpush, hinv1, hc1, -⟩ := pushItems_spec xs hinv0
  obtain ⟨s2, hpop, hinv2, hc2⟩ := popBackItems_spec xs hinv1 [] (by rw [hc1, hc0])
  have hu2 : s2.usedLength = 0 := by
    have := contents_length hinv2
    rw [hc2] at this
    simpa using this.symm
  have hone := (empty_single_block hinv2 hu2).1
  exact ⟨s0, _, s1, s2, none, s2, hnew, hpush, hpop, hu2, by simp [BloQue.NumBlocks, hone],
    popBack_empty (by omega)⟩

/-- Witness for C1: block size 2 and the items 7, 8, 9. -/
theorem push_pop_inverse_witness :
    (1 : Int) ≤ 2 ∧
    ∃ s0 sig s1 s2 r s3,
      New [BlockSize 2] = some s0 ∧
      pushItems s0 [some (7 : Nat), some 8, some 9] = some (sig, s1) ∧
      popBackItems [some (7 : Nat), some 8, some 9].length s1 =
        some ([some (7 : Nat), some 8, some 9].reverse.map (fun x => (x, true)), s2) ∧
      s2.Len = 0 ∧ s2.NumBlocks = 1 ∧
      PopBackItem s2 = some ((r, false), s3) :=
  ⟨by decide, push_pop_inverse 2 (by decide) [some (7 : Nat), some 8, some 9]⟩

/-- Claim C2: front-block exhaustiveness.  For every block size `bs ≥ 1` and every
sequence `xs` of `N ≥ 1` items pushed onto a fresh container, calling
`PopFrontBlock` until it reports `found = false` terminates (any bound above the
number of blocks suffices) and yields exactly `ceil(N / bs)` blocks; every block
but the last has length `bs`, the last has length `N mod bs` (or `bs` when `N` is
a multiple of `bs`); the blocks concatenated in the order returned are `xs`; and
the container ends with `Len() = 0` and `NumBlocks() = 1`. -/
theorem front_block_exhaustive (bs : Int) (hbs : 1 ≤ bs) (xs : List (Option α))
    (hN : 1 ≤ xs.length) :
    ∃ s0 sig s1 blks s2,
      New [BlockSize bs] = some s0 ∧
      pushItems s0 xs = some (sig, s1) ∧
      (∀ fuel, blks.length + 1 ≤ fuel → popFrontBlocks fuel s1 = some (blks, s2)) ∧
      (blks.length : Int) = ((xs.length : Int) + bs - 1) / bs ∧
      (∀ blk ∈ blks.dropLast, (blk.length : Int) = bs) ∧
      (∃ l, blks.getLast? = some l ∧
        (l.length : Int) =
          if (xs.length : Int) % bs = 0 then bs else (xs.length : Int) % bs) ∧
      blks.flatten = xs ∧ s2.Len = 0 ∧ s2.NumBlocks = 1 := by
  obtain ⟨s0, hnew, hinv0, hc0, hu0⟩ := fresh_state (α := α) hbs
  obtain ⟨s1, hpush, hinv1, hc1, hu1⟩ := pushItems_spec xs hinv0
  have hused : s1.usedLength = (xs.length : Int) := by rw [hu1, hu0]; simp
  have hpos : 1 ≤ s1.usedLength := by rw [hused]; exact_mod_cast hN
  obtain ⟨blks, s2, hdrain, hflat, hlen, hfull, ⟨l, hlast, hll⟩, hz, hone, -⟩ :=
    popFrontBlocks_spec s1.blocks.length hinv1 rfl hpos
  obtain ⟨hcount, -, hidx⟩ := blocks_count hinv1 hpos
  refine ⟨s0, _, s1, blks, s2, hnew, hpush, ?_, ?_, hfull, ⟨l, hlast, ?_⟩, ?_, hz, ?_⟩
  · intro fuel hf
    exact hdrain fuel (by omega)
  · rw [hlen, hcount, hused]
  · rw [hll, hidx, hused]
  · rw [hflat, hc1, hc0]
    simp
  · simp [BloQue.NumBlocks, hone]

/-- Witness for C2: block size 4 and the items 0..5, which come back as
`[0,1,2,3]` and `[4,5]`. -/
theorem front_block_exhaustive_witness :
    (1 : Int) ≤ 4 ∧ 1 ≤ [some (0 : Nat), some 1, some 2, some 3, some 4, some 5].length ∧
    ∃ s0 sig s1 blks s2,
      New [BlockSize 4] = some s0 ∧
      pushItems s0 [some (0 : Nat), some 1, some 2, some 3, some 4, some 5] = some (sig, s1) ∧
      (∀ fuel, blks.length + 1 ≤ fuel → popFrontBlocks fuel s1 = some (blks, s2)) ∧
      (blks.length : Int) =
        (([some (0 : Nat), some 1, some 2, some 3, some 4, some 5].length : Int) + 4 - 1) / 4 ∧
      (∀ blk ∈ blks.dropLast, (blk.length : Int) = 4) ∧
      (∃ l, blks.getLast? = some l ∧
        (l.length : Int) =
          if ([some (0 : Nat), some 1, some 2, some 3, some 4, some 5].length : Int) % 4 = 0
          then 4
          else ([some (0 : Nat), some 1, some 2, some 3, some 4, some 5].length : Int) % 4) ∧
      blks.flatten = [some (0 : Nat), some 1, some 2, some 3, some 4, some 5] ∧
      s2.Len = 0 ∧ s2.NumBlocks = 1 :=
  ⟨by decide, by decide,
    front_block_exhaustive 4 (by decide)
      [some (0 : Nat), some 1, some 2, some 3, some 4, some 5] (by decide)⟩

theorem exampleState_reachable : Reachable 2 exampleState := by
  have h0 : Reachable 2 (⟨2, 0, 0, 0, 0, [[none, none]]⟩ : BloQue Nat) :=
    Reachable.fresh (by decide)
  have h1 : Reachable 2 (⟨2, 0, 0, 1, 1, [[some 1, none]]⟩ : BloQue Nat) :=
    Reachable.push (x := some 1) (r := false) h0 (by decide)
  have h2 : Reachable 2 (⟨2, 0, 0, 2, 2, [[some 1, some 2]]⟩ : BloQue Nat) :=
    Reachable.push (x := some 2) (r := true) h1 (by decide)
  exact Reachable.push (x := some 3) (r := false) h2 (by decide)

theorem drainedState_reachable : Reachable 2 drainedState := by
  have h1 : Reachable 2 (⟨2, 0, 0, 1, 1, [[some 3, none]]⟩ : BloQue Nat) :=
    Reachable.popFront (r := ([some 1, some 2], true)) exampleState_reachable (by decide)
  exact Reachable.popBack (r := (some 3, true)) h1 (by decide)

/-- Claim C3: in every reachable state with `Len() = L > 0`, `PopFrontBlock`
returns `(b, true)` where `len(b) = min(bs, L)`, `b` is the oldest `len(b)` items
held, in push order, and afterwards `Len() = L - len(b)` with the remaining items
and their order unchanged. -/
theorem popFrontBlock_live_count (bs : Int) (hbs : 1 ≤ bs) (s : BloQue α)
    (hr : Reachable bs s) (hL : 0 < s.Len) :
    ∃ b t, PopFrontBlock s = some ((b, true), t) ∧
      (b.length : Int) = min bs s.Len ∧
      b = (contents s).take b.length ∧
      t.Len = s.Len - b.length ∧
      contents t = (contents s).drop b.length := by
  obtain ⟨b, t, hpop, -, hc, hlen, hu, -⟩ := popFront_spec (reachable_inv hbs hr) hL
  exact ⟨b, t, hpop, hlen, by simp [hc], hu, by simp [hc]⟩

/-- Witness for C3: the state after pushing 1, 2, 3 with block size 2. -/
theorem popFrontBlock_live_count_witness :
    (1 : Int) ≤ 2 ∧ Reachable 2 exampleState ∧ 0 < exampleState.Len ∧
    ∃ b t, PopFrontBlock exampleState = some ((b, true), t) ∧
      (b.length : Int) = min 2 exampleState.Len ∧
      b = (contents exampleState).take b.length ∧
      t.Len = exampleState.Len - b.length ∧
      contents t = (contents exampleState).drop b.length :=
  ⟨by decide, exampleState_reachable, by decide,
    popFrontBlock_live_count 2 (by decide) exampleState exampleState_reachable (by decide)⟩

/-- Claim C4: push/Len consistency.  After pushing any `N` items onto a container
fresh from `New(BlockSize(bs))`, `bs ≥ 1`, `Len() = N` and `NumBlocks()` is
`ceil(N / bs)`, with `NumBlocks() = 1` when `N = 0`. -/
theorem push_len_consistency (bs : Int) (hbs : 1 ≤ bs) (xs : List (Option α)) :
    ∃ s0 sig s1,
      New [BlockSize bs] = some s0 ∧
      pushItems s0 xs = some (sig, s1) ∧
      s1.Len = xs.length ∧
      s1.NumBlocks = if xs.length = 0 then 1 else ((xs.length : Int) + bs - 1) / bs := by
  obtain ⟨s0, hnew, hinv0, -, hu0⟩ := fresh_state (α := α) hbs
  obtain ⟨s1, hpush, hinv1, -, hu1⟩ := pushItems_spec xs hinv0
  have hused : s1.usedLength = (xs.length : Int) := by rw [hu1, hu0]; simp
  refine ⟨s0, _, s1, hnew, hpush, hused, ?_⟩
  by_cases hz : xs.length = 0
  · rw [if_pos hz]
    have h0 : s1.usedLength = 0 := by rw [hused, hz]; rfl
    simp [BloQue.NumBlocks, (empty_single_block hinv1 h0).1]
  · rw [if_neg hz]
    have hpos : 1 ≤ s1.usedLength := by rw [hused]; omega
    rw [← hused]
    exact (blocks_count hinv1 hpos).1

/-- Witness for C4: block size 2 and four items, a just-filled second block. -/
theorem push_len_consistency_witness :
    (1 : Int) ≤ 2 ∧
    ∃ s0 sig s1,
      New [BlockSize 2] = some s0 ∧
      pushItems s0 [some (5 : Nat), none, some 6, some 7] = some (sig, s1) ∧
      s1.Len = [some (5 : Nat), none, some 6, some 7].length ∧
      s1.NumBlocks =
        if [some (5 : Nat), none, some 6, some 7].length = 0 then 1
        else (([some (5 : Nat), none, some 6, some 7].length : Int) + 2 - 1) / 2 :=
  ⟨by decide, push_len_consistency 2 (by decide) [some (5 : Nat), none, some 6, some 7]⟩

theorem multiple_iff {bs : Int} (hbs : 1 ≤ bs) (i : Nat) :
    ((0 : Int) + (i : Int) + 1) % bs = 0 ↔ ∃ k : Int, 1 ≤ k ∧ (i : Int) + 1 = k * bs := by
  rw [zero_add]
  constructor
  · intro hz
    obtain ⟨k, hk⟩ := Int.dvd_of_emod_eq_zero hz
    refine ⟨k, ?_, by rw [hk, mul_comm]⟩
    by_contra hk1
    have hle : bs * k ≤ 0 := Int.mul_nonpos_of_nonneg_of_nonpos (by omega) (by omega)
    omega
  · rintro ⟨k, -, hk⟩
    rw [hk]
    exact Int.mul_emod_left k bs

theorem signals_multiple {bs : Int} (hbs : 1 ≤ bs) (N : Nat) :
    ((List.range N).map
        (fun (i : Nat) => decide (((0 : Int) + (i : Int) + 1) % bs = 0))).length = N ∧
    ∀ i : Nat,
      ((List.range N).map
        (fun (i : Nat) => decide (((0 : Int) + (i : Int) + 1) % bs = 0)))[i]? = some true ↔
      (i < N ∧ ∃ k : Int, 1 ≤ k ∧ (i : Int) + 1 = k * bs) := by
  refine ⟨by simp, ?_⟩
  intro i
  by_cases hi : i < N
  · simp only [List.getElem?_map, List.getElem?_range hi, Option.map_some', Option.some.injEq,
      decide_eq_true_eq, hi, true_and]
    exact multiple_iff hbs i
  · have hnone : (List.range N)[i]? = none := by
      apply List.getElem?_eq_none
      simp only [List.length_range]
      omega
    simp [hnone, hi]

theorem default_state :
    ∃ s0 : BloQue α, New [] = some s0 ∧ Inv 64 s0 ∧ s0.usedLength = 0 := by
  refine ⟨_, ?_, inv_fresh 64 (by decide), rfl⟩
  simp [New, applyOptions, newDefault, newBlock, makeBlock, defaultBlockSize]

/-- Claim C5: block-boundary signal.  In a run of pushes onto a fresh container of
block size `bs ≥ 1`, the push number `i + 1` (the entry at index `i` of the list
of returned signals) returns `true` exactly when `i + 1` is a positive multiple
of `bs`; with no options the block size is 64, so the pushes returning `true` are
exactly the 64th, 128th, and so on. -/
theorem block_boundary_signal (bs : Int) (hbs : 1 ≤ bs) (xs : List (Option α)) :
    (∃ s0 sig s1,
      New [BlockSize bs] = some s0 ∧ pushItems s0 xs = some (sig, s1) ∧
      sig.length = xs.length ∧
      ∀ i : Nat, sig[i]? = some true ↔
        (i < xs.length ∧ ∃ k : Int, 1 ≤ k ∧ (i : Int) + 1 = k * bs)) ∧
    (∃ s0 sig s1,
      New [] = some s0 ∧ pushItems s0 xs = some (sig, s1) ∧
      sig.length = xs.length ∧
      ∀ i : Nat, sig[i]? = some true ↔
        (i < xs.length ∧ ∃ k : Int, 1 ≤ k ∧ (i : Int) + 1 = k * 64)) := by
  constructor
  · obtain ⟨s0, hnew, hinv0, -, hu0⟩ := fresh_state (α := α) hbs
    obtain ⟨s1, hpush, -⟩ := pushItems_spec xs hinv0
    rw [hu0] at hpush
    exact ⟨s0, _, s1, hnew, hpush, signals_multiple hbs xs.length⟩
  · obtain ⟨s0, hnew, hinv0, hu0⟩ := default_state (α := α)
    obtain ⟨s1, hpush, -⟩ := pushItems_spec xs hinv0
    rw [hu0] at hpush
    exact ⟨s0, _, s1, hnew, hpush, signals_multiple (by decide) xs.length⟩

/-- Witness for C5: block size 2 and five items. -/
theorem block_boundary_signal_witness :
    (1 : Int) ≤ 2 ∧
    ((∃ s0 sig s1,
      New [BlockSize 2] = some s0 ∧
      pushItems s0 [some (1 : Nat), some 2, some 3, some 4, some 5] = some (sig, s1) ∧
      sig.length = [some (1 : Nat), some 2, some 3, some 4, some 5].length ∧
      ∀ i : Nat, sig[i]? = some true ↔
        (i < [some (1 : Nat), some 2, some 3, some 4, some 5].length ∧
          ∃ k : Int, 1 ≤ k ∧ (i : Int) + 1 = k * 2)) ∧
    (∃ s0 sig s1,
      New [] = some s0 ∧
      pushItems s0 [some (1 : Nat), some 2, some 3, some 4, some 5] = some (sig, s1) ∧
      sig.length = [some (1 : Nat), some 2, some 3, some 4, some 5].length ∧
      ∀ i : Nat, sig[i]? = some true ↔
        (i < [some (1 : Nat), some 2, some 3, some 4, some 5].length ∧
          ∃ k : Int, 1 ≤ k ∧ (i : Int) + 1 = k * 64))) :=
  ⟨by decide,
    block_boundary_signal 2 (by decide) [some (1 : Nat), some 2, some 3, some 4, some 5]⟩

/-- Claim C6: empty-on-empty with no mutation.  In every reachable state with
`Len() = 0`, each of `PopBackItem`, `PeekBackItem` and `PopFrontBlock` returns a
nil result with `found = false` and leaves the state as it was; that state has
`Len() = 0` and `NumBlocks() = 1`. -/
theorem empty_on_empty (bs : Int) (hbs : 1 ≤ bs) (s : BloQue α)
    (hr : Reachable bs s) (h0 : s.Len = 0) :
    PopBackItem s = some ((none, false), s) ∧
    PeekBackItem s = some ((none, false), s) ∧
    PopFrontBlock s = some (([], false), s) ∧
    s.Len = 0 ∧ s.NumBlocks = 1 := by
  have hu : s.usedLength < 1 := by
    have : s.usedLength = 0 := h0
    omega
  have hone := (empty_single_block (reachable_inv hbs hr) h0).1
  exact ⟨popBack_empty hu, peekBack_empty hu, popFront_empty hu, h0,
    by simp [BloQue.NumBlocks, hone]⟩

/-- Witness for C6: a container drained by a front-block pop and a back pop. -/
theorem empty_on_empty_witness :
    (1 : Int) ≤ 2 ∧ Reachable 2 drainedState ∧ drainedState.Len = 0 ∧
    (PopBackItem drainedState = some ((none, false), drainedState) ∧
    PeekBackItem drainedState = some ((none, false), drainedState) ∧
    PopFrontBlock drainedState = some (([], false), drainedState) ∧
    drainedState.Len = 0 ∧ drainedState.NumBlocks = 1) :=
  ⟨by decide, drainedState_reachable, by decide,
    empty_on_empty 2 (by decide) drainedState drainedState_reachable (by decide)⟩

theorem poppedState_reachable : Reachable 2 poppedState :=
  Reachable.popBack (r := (some 3, true)) exampleState_reachable (by decide)

/-- Counterexample for C7: `New(BlockSize(0))` does not fail; it returns a
container of block size 0 with `Len() = 0` and `NumBlocks() = 1`, on which
`PopBackItem`, `PeekBackItem` and `PopFrontBlock` are carried out and report
`found = false`. -/
theorem new_blockSize_zero_succeeds :
    New [BlockSize 0] = some zeroSizeState ∧ zeroSizeState.blockSize ≤ 0 ∧
    zeroSizeState.Len = 0 ∧ zeroSizeState.NumBlocks = 1 ∧
    PopBackItem zeroSizeState = some ((none, false), zeroSizeState) ∧
    PeekBackItem zeroSizeState = some ((none, false), zeroSizeState) ∧
    PopFrontBlock zeroSizeState = some (([], false), zeroSizeState) := by
  decide

theorem NewWithin_eq (maxLen : Nat) (opt : List (Setter α)) :
    NewWithin maxLen opt =
      if (maxLen : Int) < (applyOptions opt newDefault).blockSize then none else New opt := by
  by_cases hneg : (applyOptions opt (newDefault : BloQue α)).blockSize < 0
  · have hlim : ¬ (maxLen : Int) < (applyOptions opt (newDefault : BloQue α)).blockSize := by
      omega
    simp [NewWithin, New, makeBlockWithin, newBlock, makeBlock, hneg, hlim]
  · by_cases hlim : (maxLen : Int) < (applyOptions opt (newDefault : BloQue α)).blockSize
    · simp [NewWithin, makeBlockWithin, hlim]
    · simp [NewWithin, New, makeBlockWithin, newBlock, makeBlock, hneg, hlim]

theorem NewWithin_blockSize (maxLen : Nat) (n : Int) :
    (NewWithin maxLen [BlockSize n] : Option (BloQue α)) =
      (if n < 0 ∨ (maxLen : Int) < n then none
       else some { blockSize := n, maxLength := 0, maxBlocks := 0, usedLength := 0,
                   backIdx := 0, blocks := [List.replicate n.toNat none] }) := by
  by_cases hc : n < 0 ∨ (maxLen : Int) < n
  · simp [NewWithin, applyOptions, BlockSize, newDefault, makeBlockWithin, hc]
  · simp [NewWithin, applyOptions, BlockSize, newDefault, makeBlockWithin, hc]

/-- On a runtime whose slices hold at most `2^44` slots (a heap of `2^48` bytes at
16 bytes per slot), `New(BlockSize(1 << 62))` fails at construction, and so
does `New(BlockSize(-1))`, while `New(BlockSize(0))` and `New(BlockSize(3))`
succeed. -/
theorem NewWithin_examples :
    (NewWithin (2 ^ 44) [BlockSize (2 ^ 62)] : Option (BloQue Nat)) = none ∧
    (NewWithin (2 ^ 44) [BlockSize (-1)] : Option (BloQue Nat)) = none ∧
    (NewWithin (2 ^ 44) [BlockSize 0] : Option (BloQue Nat)) = some zeroSizeState ∧
    (NewWithin (2 ^ 44) [BlockSize 3] : Option (BloQue Nat)) =
      some ⟨3, 0, 0, 0, 0, [[none, none, none]]⟩ := by
  refine ⟨?_, ?_, ?_, ?_⟩ <;> rw [NewWithin_blockSize] <;> decide

/-- Claim C7, amended: with `maxLen` the largest slice length the runtime
allocates, `New(BlockSize(n))` fails at construction exactly when `n < 0` or
`n > maxLen`; for every `n` from 0 to `maxLen`, zero included, it returns a
container with `Len() = 0` and `NumBlocks() = 1`.  `New(BlockSize(0))` succeeds
on every runtime, and on the container it returns a `PushBackItem` faults, while
`PopBackItem`, `PeekBackItem` and `PopFrontBlock` return `found = false` and
leave it as it was. -/
theorem new_blockSize_construction (maxLen : Nat) (n : Int) (x : Option α) :
    (NewWithin maxLen [BlockSize n] : Option (BloQue α)) =
      (if n < 0 ∨ (maxLen : Int) < n then none
       else some { blockSize := n, maxLength := 0, maxBlocks := 0, usedLength := 0,
                   backIdx := 0, blocks := [List.replicate n.toNat none] }) ∧
    (∀ s : BloQue α, NewWithin maxLen [BlockSize n] = some s →
      s.blockSize = n ∧ s.Len = 0 ∧ s.NumBlocks = 1) ∧
    (∃ s : BloQue α, NewWithin maxLen [BlockSize 0] = some s ∧
      s.blockSize = 0 ∧ s.Len = 0 ∧ s.NumBlocks = 1 ∧
      PushBackItem s x = none ∧
      PopBackItem s = some ((none, false), s) ∧
      PeekBackItem s = some ((none, false), s) ∧
      PopFrontBlock s = some (([], false), s)) := by
  refine ⟨NewWithin_blockSize maxLen n, ?_, ?_⟩
  · intro s hs
    rw [NewWithin_blockSize] at hs
    by_cases hc : n < 0 ∨ (maxLen : Int) < n
    · simp [hc] at hs
    · simp only [hc, if_false, Option.some.injEq] at hs
      subst hs
      exact ⟨rfl, rfl, rfl⟩
  · have hc : ¬ ((0 : Int) < 0 ∨ (maxLen : Int) < 0) := by omega
    refine ⟨{ blockSize := 0, maxLength := 0, maxBlocks := 0, usedLength := 0,
              backIdx := 0, blocks := [List.replicate (0 : Int).toNat none] },
      by rw [NewWithin_blockSize, if_neg hc], rfl, rfl, rfl, ?_,
      popBack_empty (by simp), peekBack_empty (by simp), popFront_empty (by simp)⟩
    simp [PushBackItem, growIfFull, newBlock, makeBlock, writeSlot]

/-- Claim C8: structural invariants.  Every state reachable from
`New(BlockSize(bs))`, `bs ≥ 1`, has (I1) `NumBlocks() ≥ 1`, (I3)
`0 ≤ backIdx ≤ bs` with every block of the chain of length `bs`, and (I5)
`Len() = 0` implies `NumBlocks() = 1` and `backIdx = 0`. -/
theorem structural_invariants (bs : Int) (hbs : 1 ≤ bs) (s : BloQue α)
    (hr : Reachable bs s) :
    1 ≤ s.NumBlocks ∧
    (0 ≤ s.backIdx ∧ s.backIdx ≤ bs ∧ ∀ blk ∈ s.blocks, (blk.length : Int) = bs) ∧
    (s.Len = 0 → s.NumBlocks = 1 ∧ s.backIdx = 0) := by
  have hinv := reachable_inv hbs hr
  have hpos : 0 < s.blocks.length := List.length_pos.mpr hinv.nonempty
  refine ⟨?_, ⟨hinv.idxLo, hinv.idxHi, hinv.blockLen⟩, ?_⟩
  · simp only [BloQue.NumBlocks]
    omega
  · intro h0
    obtain ⟨h1, h2⟩ := empty_single_block hinv h0
    exact ⟨by simp [BloQue.NumBlocks, h1], h2⟩

/-- Witness for C8: the state after pushing 1, 2, 3 with block size 2. -/
theorem structural_invariants_witness :
    (1 : Int) ≤ 2 ∧ Reachable 2 exampleState ∧
    (1 ≤ exampleState.NumBlocks ∧
    (0 ≤ exampleState.backIdx ∧ exampleState.backIdx ≤ 2 ∧
      ∀ blk ∈ exampleState.blocks, (blk.length : Int) = 2) ∧
    (exampleState.Len = 0 → exampleState.NumBlocks = 1 ∧ exampleState.backIdx = 0)) :=
  ⟨by decide, exampleState_reachable,
    structural_invariants 2 (by decide) exampleState exampleState_reachable⟩

/-- Claim C9: count bookkeeping.  In every reachable state of a container of block
size `bs ≥ 1`, `usedLength = (NumBlocks() - 1) * bs + backIdx`, this is the
number of live items (every block but the back-most in full, then `backIdx`
slots of the back-most), and `Len()` is never negative. -/
theorem count_bookkeeping (bs : Int) (hbs : 1 ≤ bs) (s : BloQue α)
    (hr : Reachable bs s) :
    s.usedLength = (s.NumBlocks - 1) * bs + s.backIdx ∧
    ((contents s).length : Int) = s.usedLength ∧
    0 ≤ s.Len := by
  have hinv := reachable_inv hbs hr
  refine ⟨hinv.used, contents_length hinv, ?_⟩
  have hlen := contents_length hinv
  simp only [BloQue.Len]
  omega

/-- Witness for C9: the state right after a back pop removed an emptied block. -/
theorem count_bookkeeping_witness :
    (1 : Int) ≤ 2 ∧ Reachable 2 poppedState ∧
    (poppedState.usedLength = (poppedState.NumBlocks - 1) * 2 + poppedState.backIdx ∧
    ((contents poppedState).length : Int) = poppedState.usedLength ∧
    0 ≤ poppedState.Len) :=
  ⟨by decide, poppedState_reachable,
    count_bookkeeping 2 (by decide) poppedState poppedState_reachable⟩

/-- Claim C10: `PeekBackItem` is a pure query that agrees with `PopBackItem`.  In
every reachable state of a container of block size `bs ≥ 1`, `PeekBackItem`
returns its result together with the very state it was called on, and that
`(item, found)` pair is the pair `PopBackItem` returns on the same state. -/
theorem peek_agrees_with_pop (bs : Int) (hbs : 1 ≤ bs) (s : BloQue α)
    (hr : Reachable bs s) :
    ∃ r t, PeekBackItem s = some (r, s) ∧ PopBackItem s = some (r, t) := by
  by_cases hu : s.usedLength < 1
  · exact ⟨(none, false), s, peekBack_empty hu, popBack_empty hu⟩
  · obtain ⟨x, t, hpop, -, -, -, hpeek⟩ := popBack_spec (reachable_inv hbs hr) (by omega)
    exact ⟨(x, true), t, hpeek, hpop⟩

/-- Witness for C10: the state right after a back pop removed an emptied block;
both calls return the item 2. -/
theorem peek_agrees_with_pop_witness :
    (1 : Int) ≤ 2 ∧ Reachable 2 poppedState ∧
    ∃ r t, PeekBackItem poppedState = some (r, poppedState) ∧
      PopBackItem poppedState = some (r, t) :=
  ⟨by decide, poppedState_reachable,
    peek_agrees_with_pop 2 (by decide) poppedState poppedState_reachable⟩

/-- The concrete scenario of the specification: block size 4 and the items 0..5
give `Len() = 6` and `NumBlocks() = 2`; the first `PopFrontBlock` returns
`[0,1,2,3]` and leaves `Len() = 2`, `NumBlocks() = 1`; the second returns `[4,5]`
and leaves `Len() = 0`, `NumBlocks() = 1`. -/
theorem scenario_block_size_four :
    ∃ s0 sig s1 s2 s3 : _,
      New [BlockSize 4] = some s0 ∧
      pushItems s0 [some (0 : Nat), some 1, some 2, some 3, some 4, some 5] = some (sig, s1) ∧
      s1.Len = 6 ∧ s1.NumBlocks = 2 ∧
      PopFrontBlock s1 = some (([some 0, some 1, some 2, some 3], true), s2) ∧
      s2.Len = 2 ∧ s2.NumBlocks = 1 ∧
      PopFrontBlock s2 = some (([some 4, some 5], true), s3) ∧
      s3.Len = 0 ∧ s3.NumBlocks = 1 :=
  ⟨⟨4, 0, 0, 0, 0, [[none, none, none, none]]⟩, [false, false, false, true, false, false],
    ⟨4, 0, 0, 6, 2, [[some 0, some 1, some 2, some 3], [some 4, some 5, none, none]]⟩,
    ⟨4, 0, 0, 2, 2, [[some 4, some 5, none, none]]⟩,
    ⟨4, 0, 0, 0, 0, [[none, none, none, none]]⟩, by decide⟩

/-- Claim C11: peek sees the last push.  In every reachable state of a container
of block size `bs ≥ 1` and for every item `x`, `PushBackItem(x)` succeeds and a
following `PeekBackItem` returns `(x, true)`, whether or not the push allocated
a new block. -/
theorem peek_after_push (bs : Int) (hbs : 1 ≤ bs) (s : BloQue α)
    (hr : Reachable bs s) (x : Option α) :
    ∃ r t, PushBackItem s x = some (r, t) ∧ PeekBackItem t = some ((x, true), t) := by
  have hinv := reachable_inv hbs hr
  obtain ⟨t, hpush, hinvt, -, hc, hu⟩ := push_spec hinv x
  have hlen := contents_length hinv
  have hpos : 1 ≤ t.usedLength := by
    rw [hu, ← hlen]
    omega
  obtain ⟨y, t1, -, -, hc1, -, hpeek⟩ := popBack_spec hinvt hpos
  have hsplit : contents t1 ++ [y] = contents s ++ [x] := by rw [← hc1, hc]
  have hy := List.append_inj_right' hsplit rfl
  simp only [List.cons.injEq, and_true] at hy
  subst hy
  exact ⟨_, t, hpush, hpeek⟩

/-- Witness for C11: the state with a full back block, so that the push has to
allocate a new block. -/
theorem peek_after_push_witness :
    (1 : Int) ≤ 2 ∧ Reachable 2 poppedState ∧
    ∃ r t, PushBackItem poppedState (some 9) = some (r, t) ∧
      PeekBackItem t = some ((some 9, true), t) :=
  ⟨by decide, poppedState_reachable,
    peek_after_push 2 (by decide) poppedState poppedState_reachable (some 9)⟩

theorem growIfFull_spec {bs : Int} {s : BloQue α} (h : Inv bs s) :
    ∃ b1, growIfFull s = some b1 ∧ b1.blocks ≠ [] ∧ 0 ≤ b1.backIdx ∧ b1.backIdx < bs ∧
      ∀ blk, b1.blocks.getLast? = some blk → (blk.length : Int) = bs := by
  have hbs := h.bsPos
  have hlo := h.idxLo
  have hhi := h.idxHi
  by_cases hfull : s.backIdx = s.blockSize
  · have hneg : ¬ s.blockSize < 0 := by rw [h.size]; omega
    refine ⟨{ s with blocks := s.blocks ++ [List.replicate s.blockSize.toNat none],
                     backIdx := 0 }, ?_, by simp, le_refl _, by simp; omega, ?_⟩
    · simp [growIfFull, hfull, newBlock, makeBlock, hneg]
    · intro blk hb
      simp only [List.getLast?_concat, Option.some.injEq] at hb
      subst hb
      rw [h.size]
      simp
      omega
  · refine ⟨s, by simp [growIfFull, hfull], h.nonempty, hlo, ?_, ?_⟩
    · rw [h.size] at hfull
      omega
    · intro blk hb
      obtain ⟨ys, hys⟩ := List.getLast?_eq_some_iff.mp hb
      exact h.blockLen blk (by simp [hys])

/-- Claim C14: no operation faults on a well-configured container.  In every
reachable state of a container of block size `bs ≥ 1`, `PushBackItem`,
`PopBackItem`, `PeekBackItem` and `PopFrontBlock` all return a result; the chain
is non-empty and all its blocks have length `bs`; the index `PushBackItem`
writes at (after the allocation step) is in `[0, bs)`; when `Len() ≥ 1` the index
`backIdx - 1` read by `PopBackItem` and `PeekBackItem` is in `[0, bs)`; and the
slice bound `backIdx` of `PopFrontBlock` is at most `bs`. -/
theorem no_fault (bs : Int) (hbs : 1 ≤ bs) (s : BloQue α)
    (hr : Reachable bs s) (x : Option α) :
    ((PushBackItem s x).isSome ∧ (PopBackItem s).isSome ∧
      (PeekBackItem s).isSome ∧ (PopFrontBlock s).isSome) ∧
    (s.blocks ≠ [] ∧ ∀ blk ∈ s.blocks, (blk.length : Int) = bs) ∧
    (∃ b1, growIfFull s = some b1 ∧ b1.blocks ≠ [] ∧ 0 ≤ b1.backIdx ∧ b1.backIdx < bs ∧
      ∀ blk, b1.blocks.getLast? = some blk → (blk.length : Int) = bs) ∧
    (1 ≤ s.Len → 0 ≤ s.backIdx - 1 ∧ s.backIdx - 1 < bs) ∧
    (0 ≤ s.backIdx ∧ s.backIdx ≤ bs) := by
  have hinv := reachable_inv hbs hr
  refine ⟨⟨?_, ?_, ?_, ?_⟩, ⟨hinv.nonempty, hinv.blockLen⟩, growIfFull_spec hinv, ?_,
    ⟨hinv.idxLo, hinv.idxHi⟩⟩
  · obtain ⟨t, hpush, -⟩ := push_spec hinv x
    simp [hpush]
  · by_cases hu : s.usedLength < 1
    · simp [popBack_empty hu]
    · obtain ⟨y, t, hpop, -⟩ := popBack_spec hinv (by omega)
      simp [hpop]
  · by_cases hu : s.usedLength < 1
    · simp [peekBack_empty hu]
    · obtain ⟨y, t, -, -, -, -, hpeek⟩ := popBack_spec hinv (by omega)
      simp [hpeek]
  · by_cases hu : s.usedLength < 1
    · simp [popFront_empty hu]
    · obtain ⟨b, t, hpop, -⟩ := popFront_spec hinv (by omega)
      simp [hpop]
  · intro hL
    have h1 := (blocks_count hinv hL).2.1
    have hhi := hinv.idxHi
    omega

/-- Witness for C14: the state after pushing 1, 2, 3 with block size 2. -/
theorem no_fault_witness :
    (1 : Int) ≤ 2 ∧ Reachable 2 exampleState ∧
    (((PushBackItem exampleState (some 4)).isSome ∧ (PopBackItem exampleState).isSome ∧
      (PeekBackItem exampleState).isSome ∧ (PopFrontBlock exampleState).isSome) ∧
    (exampleState.blocks ≠ [] ∧ ∀ blk ∈ exampleState.blocks, (blk.length : Int) = 2) ∧
    (∃ b1, growIfFull exampleState = some b1 ∧ b1.blocks ≠ [] ∧ 0 ≤ b1.backIdx ∧
      b1.backIdx < 2 ∧ ∀ blk, b1.blocks.getLast? = some blk → (blk.length : Int) = 2) ∧
    (1 ≤ exampleState.Len → 0 ≤ exampleState.backIdx - 1 ∧ exampleState.backIdx - 1 < 2) ∧
    (0 ≤ exampleState.backIdx ∧ exampleState.backIdx ≤ 2)) :=
  ⟨by decide, exampleState_reachable,
    no_fault 2 (by decide) exampleState exampleState_reachable (some 4)⟩

/-- Claim C15: the block count is a function of the item count.  In every
reachable state of a container of block size `bs ≥ 1`,
`NumBlocks() = max(1, ceil(Len() / bs))`; a chain of more than one block has a
non-empty back block, and every block before the back-most is counted in full. -/
theorem numBlocks_of_len (bs : Int) (hbs : 1 ≤ bs) (s : BloQue α)
    (hr : Reachable bs s) :
    s.NumBlocks = max 1 ((s.Len + bs - 1) / bs) ∧
    (1 < s.NumBlocks → 1 ≤ s.backIdx) ∧
    s.Len = (s.NumBlocks - 1) * bs + s.backIdx := by
  have hinv := reachable_inv hbs hr
  have hpos : 0 < s.blocks.length := List.length_pos.mpr hinv.nonempty
  have hlen := contents_length hinv
  refine ⟨?_, ?_, hinv.used⟩
  · by_cases h0 : s.usedLength = 0
    · have hone := (empty_single_block hinv h0).1
      have hdiv : (s.Len + bs - 1) / bs = 0 := by
        apply Int.ediv_eq_zero_of_lt
        · simp only [BloQue.Len, h0]
          omega
        · simp only [BloQue.Len, h0]
          omega
      rw [hdiv]
      simp [BloQue.NumBlocks, hone]
    · have hu : 1 ≤ s.usedLength := by omega
      have hcount := (blocks_count hinv hu).1
      simp only [BloQue.NumBlocks, BloQue.Len]
      rw [← hcount]
      omega
  · intro hl
    apply hinv.idxPos
    simp only [BloQue.NumBlocks] at hl
    omega

/-- Witness for C15: the state after pushing 1, 2, 3 with block size 2. -/
theorem numBlocks_of_len_witness :
    (1 : Int) ≤ 2 ∧ Reachable 2 exampleState ∧
    (exampleState.NumBlocks = max 1 ((exampleState.Len + 2 - 1) / 2) ∧
    (1 < exampleState.NumBlocks → 1 ≤ exampleState.backIdx) ∧
    exampleState.Len = (exampleState.NumBlocks - 1) * 2 + exampleState.backIdx) :=
  ⟨by decide, exampleState_reachable,
    numBlocks_of_len 2 (by decide) exampleState exampleState_reachable⟩

/-- Claim C16: the push signal depends only on the item count.  In every
reachable state of a container of block size `bs ≥ 1` and for every item `x`,
`PushBackItem(x)` succeeds and returns `true` exactly when `Len()` after the push
is a multiple of `bs`. -/
theorem push_signal_of_len (bs : Int) (hbs : 1 ≤ bs) (s : BloQue α)
    (hr : Reachable bs s) (x : Option α) :
    ∃ r t, PushBackItem s x = some (r, t) ∧ (r = true ↔ t.Len % bs = 0) := by
  obtain ⟨t, hpush, hinvt, hidx, -⟩ := push_spec (reachable_inv hbs hr) x
  refine ⟨_, t, hpush, ?_⟩
  rw [decide_eq_true_eq]
  exact full_iff_multiple hinvt hidx

/-- Witness for C16: a push onto a state reached through a front-block pop. -/
theorem push_signal_of_len_witness :
    (1 : Int) ≤ 2 ∧ Reachable 2 drainedState ∧
    ∃ r t, PushBackItem drainedState (some 1) = some (r, t) ∧ (r = true ↔ t.Len % 2 = 0) :=
  ⟨by decide, drainedState_reachable,
    push_signal_of_len 2 (by decide) drainedState drainedState_reachable (some 1)⟩

theorem push_exact_full {s : BloQue α} (hfull : s.backIdx = s.blockSize)
    (hbs : 1 ≤ s.blockSize) (x : Option α) :
    PushBackItem s x =
      some (decide ((1 : Int) = s.blockSize),
        { s with
          blocks := s.blocks ++ [(List.replicate s.blockSize.toNat none).set 0 x]
          backIdx := 1
          usedLength := s.usedLength + 1 }) := by
  obtain ⟨blockSize, maxLength, maxBlocks, usedLength, backIdx, blocks⟩ := s
  simp only at hfull hbs
  subst hfull
  have h1 : ¬ backIdx < 0 := by omega
  have h2 : 0 < backIdx := by omega
  simp [PushBackItem, growIfFull, newBlock, makeBlock, writeSlot, h1, h2]

theorem push_exact_room {s : BloQue α} {front : List (BlockT α)} {back : BlockT α}
    (hfb : s.blocks = front ++ [back]) (hroom : s.backIdx ≠ s.blockSize)
    (hlo : 0 ≤ s.backIdx) (hhi : s.backIdx < (back.length : Int)) (x : Option α) :
    PushBackItem s x =
      some (decide (s.backIdx + 1 = s.blockSize),
        { s with
          blocks := front ++ [back.set s.backIdx.toNat x]
          backIdx := s.backIdx + 1
          usedLength := s.usedLength + 1 }) := by
  obtain ⟨blockSize, maxLength, maxBlocks, usedLength, backIdx, blocks⟩ := s
  simp only at hfb hroom hlo hhi
  subst hfb
  simp [PushBackItem, growIfFull, hroom, writeSlot, hlo, hhi]

theorem popBack_exact_remove {s : BloQue α} {front : List (BlockT α)} {back : BlockT α}
    (hfb : s.blocks = front ++ [back]) (hne : front ≠ []) (hidx : s.backIdx = 1)
    (hu : 1 ≤ s.usedLength) (hlen : 0 < back.length) :
    PopBackItem s =
      some ((back.getD 0 none, true),
        { s with blocks := front, backIdx := s.blockSize, usedLength := s.usedLength - 1 }) := by
  obtain ⟨blockSize, maxLength, maxBlocks, usedLength, backIdx, blocks⟩ := s
  simp only at hfb hidx hu
  subst hfb hidx
  have hu1 : ¬ usedLength < 1 := by omega
  have hrange : (0 : Int) ≤ 1 - 1 ∧ (1 : Int) - 1 < (back.length : Int) := by omega
  have hlen1 : 1 < (front ++ [back.set ((1 : Int) - 1).toNat none]).length := by
    have : 0 < front.length := List.length_pos.mpr hne
    simp
    omega
  simp only [PopBackItem, hu1, if_false, List.getLast?_concat, readSlot, writeSlot, hrange,
    and_self, if_true, List.dropLast_concat]
  rw [if_pos ⟨by omega, hlen1⟩]
  rfl

theorem popBack_exact_keep {s : BloQue α} {front : List (BlockT α)} {back : BlockT α}
    (hfb : s.blocks = front ++ [back]) (hkeep : s.backIdx = 1 → front = [])
    (hlo : 1 ≤ s.backIdx) (hhi : s.backIdx ≤ (back.length : Int)) (hu : 1 ≤ s.usedLength) :
    PopBackItem s =
      some ((back.getD (s.backIdx - 1).toNat none, true),
        { s with
          blocks := front ++ [back.set (s.backIdx - 1).toNat none]
          backIdx := s.backIdx - 1
          usedLength := s.usedLength - 1 }) := by
  obtain ⟨blockSize, maxLength, maxBlocks, usedLength, backIdx, blocks⟩ := s
  simp only at hfb hkeep hlo hhi hu
  subst hfb
  have hu1 : ¬ usedLength < 1 := by omega
  have hrange : 0 ≤ backIdx - 1 ∧ backIdx - 1 < (back.length : Int) := by omega
  have hcond : ¬ (backIdx - 1 = 0 ∧
      1 < (front ++ [back.set (backIdx - 1).toNat none]).length) := by
    rintro ⟨hz, hl⟩
    have hnil := hkeep (by omega)
    subst hnil
    simp at hl
  simp only [PopBackItem, hu1, if_false, List.getLast?_concat, readSlot, writeSlot, hrange,
    and_self, if_true, List.dropLast_concat]
  rw [if_neg hcond]

theorem popFront_exact_single {s : BloQue α} {blk : BlockT α}
    (hb : s.blocks = [blk]) (hu : 1 ≤ s.usedLength) (hlo : 0 ≤ s.backIdx)
    (hhi : s.backIdx ≤ (blk.length : Int)) (hbs : 0 ≤ s.blockSize) :
    PopFrontBlock s =
      some ((blk.take s.backIdx.toNat, true),
        { s with
          backIdx := 0
          usedLength := 0
          blocks := [List.replicate s.blockSize.toNat none] }) := by
  obtain ⟨blockSize, maxLength, maxBlocks, usedLength, backIdx, blocks⟩ := s
  simp only at hb hu hlo hhi hbs
  subst hb
  have hu1 : ¬ usedLength < 1 := by omega
  have hneg : ¬ blockSize < 0 := by omega
  simp [PopFrontBlock, hu1, sliceTo, hlo, hhi, newBlock, makeBlock, hneg]

theorem popFront_exact_many {s : BloQue α} {blk r : BlockT α} {rs : List (BlockT α)}
    (hb : s.blocks = blk :: r :: rs) (hu : 1 ≤ s.usedLength) :
    PopFrontBlock s =
      some ((blk, true),
        { s with usedLength := s.usedLength - s.blockSize, blocks := r :: rs }) := by
  obtain ⟨blockSize, maxLength, maxBlocks, usedLength, backIdx, blocks⟩ := s
  simp only at hb hu
  subst hb
  have hu1 : ¬ usedLength < 1 := by omega
  simp [PopFrontBlock, hu1]

theorem getD_set_ne (l : BlockT α) (i j : Nat) (x : Option α) (h : i ≠ j) :
    (l.set i x).getD j none = l.getD j none := by
  simp [List.getD_eq_getElem?_getD, List.getElem?_set_ne h]

theorem getD_set_self (l : BlockT α) (i : Nat) (x : Option α) (h : i < l.length) :
    (l.set i x).getD i none = x := by
  simp [List.getD_eq_getElem?_getD, List.getElem?_set_self, h]

theorem getD_replicate_none (n j : Nat) :
    (List.replicate n (none : Option α)).getD j none = none := by
  by_cases h : j < n
  · simp [List.getD_eq_getElem?_getD, List.getElem?_replicate, h]
  · simp [List.getD_eq_getElem?_getD, List.getElem?_replicate, h]

theorem set_none_of_getD (l : BlockT α) (i : Nat) (h : l.getD i none = none) :
    l.set i none = l := by
  induction l generalizing i with
  | nil => simp
  | cons a l ih =>
    cases i with
    | zero =>
      simp only [List.getD_cons_zero] at h
      simp [h]
    | succ i =>
      simp only [List.getD_cons_succ] at h
      simp [ih i h]

theorem push_nilTail {bs : Int} {s t : BloQue α} {x : Option α} {r : Bool}
    (h : Inv bs s) (hn : NilTail s) (hstep : PushBackItem s x = some (r, t)) :
    NilTail t := by
  obtain ⟨front, back, hfb⟩ := inv_shape h
  have hback : (back.length : Int) = bs := h.blockLen back (by simp [hfb])
  have hbs := h.bsPos
  have hlo := h.idxLo
  have hhi := h.idxHi
  by_cases hfull : s.backIdx = s.blockSize
  · rw [push_exact_full hfull (by rw [h.size]; exact hbs) x] at hstep
    simp only [Option.some.injEq, Prod.mk.injEq] at hstep
    rw [← hstep.2]
    intro blk hb i hi
    simp only [List.getLast?_concat, Option.some.injEq] at hb
    subst hb
    have hi1 : 1 ≤ i := by simpa using hi
    rw [getD_set_ne _ 0 i x (by omega)]
    exact getD_replicate_none _ _
  · have hsz := h.size
    rw [push_exact_room hfb hfull hlo (by omega) x] at hstep
    simp only [Option.some.injEq, Prod.mk.injEq] at hstep
    rw [← hstep.2]
    intro blk hb i hi
    simp only [List.getLast?_concat, Option.some.injEq] at hb
    subst hb
    have hi1 : s.backIdx.toNat + 1 ≤ i := by
      have : (s.backIdx + 1).toNat ≤ i := hi
      omega
    rw [getD_set_ne _ _ i x (by omega)]
    exact hn back (by simp [hfb]) i (by omega)

theorem popBack_nilTail {bs : Int} {s t : BloQue α} {r : Option α × Bool}
    (h : Inv bs s) (hn : NilTail s) (hstep : PopBackItem s = some (r, t)) :
    NilTail t := by
  by_cases hu : s.usedLength < 1
  · rw [popBack_empty hu] at hstep
    simp only [Option.some.injEq, Prod.mk.injEq] at hstep
    rw [← hstep.2]
    exact hn
  · obtain ⟨front, back, hfb⟩ := inv_shape h
    have hback : (back.length : Int) = bs := h.blockLen back (by simp [hfb])
    have hbs := h.bsPos
    have hhi := h.idxHi
    have hsz := h.size
    have hidx := (blocks_count h (by omega)).2.1
    by_cases hrm : s.backIdx = 1 ∧ front ≠ []
    · rw [popBack_exact_remove hfb hrm.2 hrm.1 (by omega) (by omega)] at hstep
      simp only [Option.some.injEq, Prod.mk.injEq] at hstep
      rw [← hstep.2]
      intro blk hb i hi
      simp only at hb hi
      obtain ⟨ys, hys⟩ := List.getLast?_eq_some_iff.mp hb
      have hblk : (blk.length : Int) = bs := h.blockLen blk (by simp [hfb, hys])
      apply List.getD_eq_default
      omega
    · have hkeep : s.backIdx = 1 → front = [] := by
        intro h1
        by_contra hne
        exact hrm ⟨h1, hne⟩
      rw [popBack_exact_keep hfb hkeep hidx (by omega) (by omega)] at hstep
      simp only [Option.some.injEq, Prod.mk.injEq] at hstep
      rw [← hstep.2]
      intro blk hb i hi
      simp only [List.getLast?_concat, Option.some.injEq] at hb
      subst hb
      have hi1 : (s.backIdx - 1).toNat ≤ i := hi
      by_cases heq : (s.backIdx - 1).toNat = i
      · rw [← heq]
        exact getD_set_self back _ none (by omega)
      · rw [getD_set_ne _ _ i none heq]
        exact hn back (by simp [hfb]) i (by omega)

theorem popFront_nilTail {bs : Int} {s t : BloQue α} {r : BlockT α × Bool}
    (h : Inv bs s) (hn : NilTail s) (hstep : PopFrontBlock s = some (r, t)) :
    NilTail t := by
  by_cases hu : s.usedLength < 1
  · rw [popFront_empty hu] at hstep
    simp only [Option.some.injEq, Prod.mk.injEq] at hstep
    rw [← hstep.2]
    exact hn
  · have hbs := h.bsPos
    have hsz := h.size
    have hne := h.nonempty
    rcases hblocks : s.blocks with _ | ⟨blk, rest⟩
    · exact absurd hblocks hne
    · have hblk : (blk.length : Int) = bs := h.blockLen blk (by simp [hblocks])
      rcases rest with _ | ⟨b1, rs⟩
      · rw [popFront_exact_single hblocks (by omega) h.idxLo (by have := h.idxHi; omega)
          (by omega)] at hstep
        simp only [Option.some.injEq, Prod.mk.injEq] at hstep
        rw [← hstep.2]
        intro b hb i _
        simp only [List.getLast?_singleton, Option.some.injEq] at hb
        subst hb
        exact getD_replicate_none _ _
      · rw [popFront_exact_many hblocks (by omega)] at hstep
        simp only [Option.some.injEq, Prod.mk.injEq] at hstep
        rw [← hstep.2]
        intro b hb i hi
        simp only at hb hi
        exact hn b (by rw [hblocks, List.getLast?_cons_cons]; exact hb) i hi

theorem reachable_nilTail {bs : Int} (hbs : 1 ≤ bs) {s : BloQue α} (h : Reachable bs s) :
    NilTail s := by
  induction h with
  | fresh hnew =>
    rw [New_blockSize bs (by omega)] at hnew
    simp only [Option.some.injEq] at hnew
    subst hnew
    intro blk hb i _
    simp only [List.getLast?_singleton, Option.some.injEq] at hb
    subst hb
    exact getD_replicate_none _ _
  | push hprev hstep ih => exact push_nilTail (reachable_inv hbs hprev) ih hstep
  | popBack hprev hstep ih => exact popBack_nilTail (reachable_inv hbs hprev) ih hstep
  | peekBack hprev hstep ih =>
    rw [peekBack_state hstep]
    exact ih
  | popFront hprev hstep ih => exact popFront_nilTail (reachable_inv hbs hprev) ih hstep

theorem push_popBack_roundtrip {bs : Int} {s : BloQue α} (h : Inv bs s) (hn : NilTail s)
    (x : Option α) :
    ∃ r t, PushBackItem s x = some (r, t) ∧ PopBackItem t = some ((x, true), s) := by
  obtain ⟨front, back, hfb⟩ := inv_shape h
  have hback : (back.length : Int) = bs := h.blockLen back (by simp [hfb])
  have hbs := h.bsPos
  have hlo := h.idxLo
  have hhi := h.idxHi
  have hsz := h.size
  have hused : 0 ≤ s.usedLength := by
    have := contents_length h
    omega
  by_cases hfull : s.backIdx = s.blockSize
  · refine ⟨_, _, push_exact_full hfull (by omega) x, ?_⟩
    rw [@popBack_exact_remove _ _ s.blocks _ rfl h.nonempty rfl
      (by simp only; omega) (by simp; omega)]
    rw [getD_set_self _ 0 x (by simp; omega)]
    obtain ⟨blockSize, maxLength, maxBlocks, usedLength, backIdx, blocks⟩ := s
    simp only at hfull
    simp [hfull]
  · refine ⟨_, _, push_exact_room hfb hfull hlo (by omega) x, ?_⟩
    have hkeep : s.backIdx + 1 = 1 → front = [] := by
      intro h0
      by_contra hne
      have hpos : 0 < front.length := List.length_pos.mpr hne
      have := h.idxPos (by rw [hfb]; simp; omega)
      omega
    have hlt : s.backIdx.toNat < back.length := by omega
    rw [@popBack_exact_keep _ _ front (back.set s.backIdx.toNat x) rfl
      hkeep (by simp only; omega) (by simp; omega) (by simp only; omega)]
    have hidx : (s.backIdx + 1 - 1).toNat = s.backIdx.toNat := by omega
    have hnil : back.getD s.backIdx.toNat none = none :=
      hn back (by simp [hfb]) _ (le_refl _)
    simp only [hidx, getD_set_self back _ x hlt, List.set_set, set_none_of_getD back _ hnil]
    obtain ⟨blockSize, maxLength, maxBlocks, usedLength, backIdx, blocks⟩ := s
    simp only at hfb
    simp [hfb]

/-- Claim C17: a push followed by a back pop is the identity on the container.
In every reachable state `s` of a container of block size `bs ≥ 1` and for every
item `x`, `PushBackItem(x)` succeeds and the following `PopBackItem` returns
`(x, true)` and leaves the container in state `s` again, all fields and block
contents included, also when the push allocated a new block. -/
theorem push_then_popBack_identity (bs : Int) (hbs : 1 ≤ bs) (s : BloQue α)
    (hr : Reachable bs s) (x : Option α) :
    ∃ r t, PushBackItem s x = some (r, t) ∧ PopBackItem t = some ((x, true), s) :=
  push_popBack_roundtrip (reachable_inv hbs hr) (reachable_nilTail hbs hr) x

/-- Witness for C17: the back block is full, so the push allocates a block that
the pop removes again. -/
theorem push_then_popBack_identity_witness :
    (1 : Int) ≤ 2 ∧ Reachable 2 poppedState ∧
    ∃ r t, PushBackItem poppedState (some 5) = some (r, t) ∧
      PopBackItem t = some ((some 5, true), poppedState) :=
  ⟨by decide, poppedState_reachable,
    push_then_popBack_identity 2 (by decide) poppedState poppedState_reachable (some 5)⟩

/-- Claim C19: popped slots are cleared.  In every reachable state of a container
of block size `bs ≥ 1`, every slot of the back-most block at an index in
`[backIdx, bs)` holds `nil`; in particular, after a `PopBackItem` that returned
an item, every slot from the new `backIdx` on, the slot just read included, is
`nil`. -/
theorem popped_slots_cleared (bs : Int) (hbs : 1 ≤ bs) (s : BloQue α)
    (hr : Reachable bs s) :
    (∃ blk, s.blocks.getLast? = some blk ∧
      ∀ i : Int, s.backIdx ≤ i → i < bs → readSlot blk i = some none) ∧
    (∀ x t, PopBackItem s = some ((x, true), t) →
      ∃ blk, t.blocks.getLast? = some blk ∧
        ∀ i : Int, t.backIdx ≤ i → i < bs → readSlot blk i = some none) := by
  have key : ∀ u : BloQue α, Reachable bs u →
      ∃ blk, u.blocks.getLast? = some blk ∧
        ∀ i : Int, u.backIdx ≤ i → i < bs → readSlot blk i = some none := by
    intro u hu
    have hinv := reachable_inv hbs hu
    have hnil := reachable_nilTail hbs hu
    obtain ⟨front, back, hfb⟩ := inv_shape hinv
    have hback : (back.length : Int) = bs := hinv.blockLen back (by simp [hfb])
    have hlo := hinv.idxLo
    refine ⟨back, by simp [hfb], ?_⟩
    intro i hi1 hi2
    have hrange : 0 ≤ i ∧ i < (back.length : Int) := by omega
    simp only [readSlot, hrange, and_self, if_true, Option.some.injEq]
    exact hnil back (by simp [hfb]) i.toNat (by omega)
  exact ⟨key s hr, fun x t hstep => key t (Reachable.popBack hr hstep)⟩

/-- Witness for C19: the state after pushing 1, 2, 3 with block size 2, whose back
block has one free slot. -/
theorem popped_slots_cleared_witness :
    (1 : Int) ≤ 2 ∧ Reachable 2 exampleState ∧
    ((∃ blk, exampleState.blocks.getLast? = some blk ∧
      ∀ i : Int, exampleState.backIdx ≤ i → i < 2 → readSlot blk i = some none) ∧
    (∀ x t, PopBackItem exampleState = some ((x, true), t) →
      ∃ blk, t.blocks.getLast? = some blk ∧
        ∀ i : Int, t.backIdx ≤ i → i < 2 → readSlot blk i = some none)) :=
  ⟨by decide, exampleState_reachable,
    popped_slots_cleared 2 (by decide) exampleState exampleState_reachable⟩

theorem push_setCaps (ml mb : Int) (s : BloQue α) (x : Option α) :
    PushBackItem (setCaps ml mb s) x =
      (PushBackItem s x).map (fun p => (p.1, setCaps ml mb p.2)) := by
  obtain ⟨blockSize, maxLength, maxBlocks, usedLength, backIdx, blocks⟩ := s
  simp only [PushBackItem, growIfFull, setCaps, newBlock, makeBlock]
  by_cases hfull : backIdx = blockSize
  · by_cases hneg : blockSize < 0
    · simp [hfull, hneg]
    · simp only [hfull, hneg, if_true, if_false, List.getLast?_concat, List.dropLast_concat]
      rcases hw : writeSlot (List.replicate blockSize.toNat (none : Option α)) 0 x with _ | b1
      · simp [hw]
      · simp [hw]
  · simp only [hfull, if_false]
    rcases hl : blocks.getLast? with _ | block
    · simp
    · rcases hw : writeSlot block backIdx x with _ | b1
      · simp [hw]
      · simp [hw]

theorem popBack_setCaps (ml mb : Int) (s : BloQue α) :
    PopBackItem (setCaps ml mb s) =
      (PopBackItem s).map (fun p => (p.1, setCaps ml mb p.2)) := by
  obtain ⟨blockSize, maxLength, maxBlocks, usedLength, backIdx, blocks⟩ := s
  simp only [PopBackItem, setCaps]
  by_cases hu : usedLength < 1
  · simp [hu]
  · simp only [hu, if_false]
    rcases hl : blocks.getLast? with _ | blk
    · simp
    · rcases hr : readSlot blk (backIdx - 1) with _ | item
      · simp [hr]
      · rcases hw : writeSlot blk (backIdx - 1) none with _ | b1
        · simp [hr, hw]
        · simp only [hr, hw, List.dropLast_concat]
          split_ifs <;> rfl

theorem peekBack_setCaps (ml mb : Int) (s : BloQue α) :
    PeekBackItem (setCaps ml mb s) =
      (PeekBackItem s).map (fun p => (p.1, setCaps ml mb p.2)) := by
  obtain ⟨blockSize, maxLength, maxBlocks, usedLength, backIdx, blocks⟩ := s
  simp only [PeekBackItem, setCaps]
  by_cases hu : usedLength < 1
  · simp [hu]
  · simp only [hu, if_false]
    rcases hl : blocks.getLast? with _ | blk
    · simp
    · rcases hr : readSlot blk (backIdx - 1) with _ | item
      · simp [hr]
      · simp [hr]

theorem popFront_setCaps (ml mb : Int) (s : BloQue α) :
    PopFrontBlock (setCaps ml mb s) =
      (PopFrontBlock s).map (fun p => (p.1, setCaps ml mb p.2)) := by
  obtain ⟨blockSize, maxLength, maxBlocks, usedLength, backIdx, blocks⟩ := s
  simp only [PopFrontBlock, setCaps, newBlock, makeBlock]
  by_cases hu : usedLength < 1
  · simp [hu]
  · simp only [hu, if_false]
    rcases blocks with _ | ⟨blk, rest⟩
    · simp
    · rcases rest with _ | ⟨r, rs⟩
      · simp only [List.length_singleton, if_true, List.length_nil]
        rcases hs : sliceTo blk backIdx with _ | out
        · simp [hs]
        · by_cases hneg : blockSize < 0
          · simp [hs, hneg]
          · simp [hs, hneg]
      · simp

theorem applyOp_setCaps (ml mb : Int) (s : BloQue α) (op : Op α) :
    applyOp (setCaps ml mb s) op =
      (applyOp s op).map (fun p => (p.1, setCaps ml mb p.2)) := by
  cases op with
  | pushBackItem x =>
    simp only [applyOp, push_setCaps]
    rcases PushBackItem s x with _ | ⟨r, t⟩ <;> rfl
  | popBackItem =>
    simp only [applyOp, popBack_setCaps]
    rcases PopBackItem s with _ | ⟨⟨x, f⟩, t⟩ <;> rfl
  | peekBackItem =>
    simp only [applyOp, peekBack_setCaps]
    rcases PeekBackItem s with _ | ⟨⟨x, f⟩, t⟩ <;> rfl
  | popFrontBlock =>
    simp only [applyOp, popFront_setCaps]
    rcases PopFrontBlock s with _ | ⟨⟨b, f⟩, t⟩ <;> rfl
  | len => rfl
  | numBlocks => rfl

theorem runOps_setCaps (ml mb : Int) (ops : List (Op α)) (s : BloQue α) :
    runOps (setCaps ml mb s) ops =
      (runOps s ops).map (fun p => (p.1, setCaps ml mb p.2)) := by
  induction ops generalizing s with
  | nil => rfl
  | cons op ops ih =>
    simp only [runOps, applyOp_setCaps]
    rcases applyOp s op with _ | ⟨a, t⟩
    · rfl
    · simp only [Option.map_some', ih]
      rcases runOps t ops with _ | ⟨as, u⟩ <;> rfl

theorem runOps_answers_setCaps (ml mb : Int) (ops : List (Op α)) (s : BloQue α) :
    (runOps (setCaps ml mb s) ops).map Prod.fst = (runOps s ops).map Prod.fst := by
  rw [runOps_setCaps]
  rcases runOps s ops with _ | ⟨as, u⟩ <;> rfl

theorem New_of_blockSize (opt : List (Setter α))
    (hbs : 0 ≤ (applyOptions opt newDefault).blockSize) :
    New opt =
      some { applyOptions opt newDefault with
        blocks := (applyOptions opt newDefault).blocks ++
          [List.replicate (applyOptions opt newDefault).blockSize.toNat none] } := by
  have hneg : ¬ (applyOptions opt (newDefault : BloQue α)).blockSize < 0 := by omega
  simp [New, newBlock, makeBlock, hneg]

theorem NewWithMaxLength_eq (m : Int) (opt : List (Setter α))
    (hbs : 1 ≤ (applyOptions opt newDefault).blockSize) :
    ∃ s ml mb, New opt = some s ∧ NewWithMaxLength m opt = some (setCaps ml mb s) := by
  have hneg : ¬ (applyOptions opt (newDefault : BloQue α)).blockSize < 0 := by omega
  have hnz : (applyOptions opt (newDefault : BloQue α)).blockSize ≠ 0 := by omega
  refine ⟨_, (applyOptions opt newDefault).maxLength,
    wrapInt ((applyOptions opt newDefault).maxLength.tdiv (applyOptions opt newDefault).blockSize),
    New_of_blockSize opt (by omega), ?_⟩
  simp [NewWithMaxLength, goDiv, hnz, newBlock, makeBlock, hneg, setCaps]

theorem NewWithMaxBlocks_eq (k : Int) (opt : List (Setter α))
    (hbs : 1 ≤ (applyOptions opt newDefault).blockSize) :
    ∃ s ml mb, New opt = some s ∧ NewWithMaxBlocks k opt = some (setCaps ml mb s) := by
  have hneg : ¬ (applyOptions opt (newDefault : BloQue α)).blockSize < 0 := by omega
  refine ⟨_, goMul (applyOptions opt newDefault).maxBlocks (applyOptions opt newDefault).blockSize,
    (applyOptions opt newDefault).maxBlocks, New_of_blockSize opt (by omega), ?_⟩
  simp [NewWithMaxBlocks, newBlock, makeBlock, hneg, setCaps]

theorem wrapInt_zero : wrapInt 0 = 0 := by decide

theorem capped_eq_New (m k bs : Int) (hbs : 1 ≤ bs) :
    (NewWithMaxLength m [BlockSize bs] : Option (BloQue α)) = New [BlockSize bs] ∧
    (NewWithMaxBlocks k [BlockSize bs] : Option (BloQue α)) = New [BlockSize bs] := by
  have hneg : ¬ bs < 0 := by omega
  have hnz : bs ≠ 0 := by omega
  constructor
  · simp [NewWithMaxLength, New, applyOptions, BlockSize, newDefault, goDiv, hnz, newBlock,
      makeBlock, hneg, wrapInt_zero]
  · simp [NewWithMaxBlocks, New, applyOptions, BlockSize, newDefault, goMul, newBlock,
      makeBlock, hneg, wrapInt_zero]

theorem pushItems_counts {bs : Int} (hbs : 1 ≤ bs) (xs : List (Option α)) :
    ∃ s0 sig s1,
      New [BlockSize bs] = some s0 ∧ pushItems s0 xs = some (sig, s1) ∧
      s1.Len = xs.length ∧
      s1.NumBlocks = if xs.length = 0 then 1 else ((xs.length : Int) + bs - 1) / bs := by
  obtain ⟨s0, hnew, hinv0, -, hu0⟩ := fresh_state (α := α) hbs
  obtain ⟨s1, hpush, hinv1, -, hu1⟩ := pushItems_spec xs hinv0
  have hused : s1.usedLength = (xs.length : Int) := by rw [hu1, hu0]; simp
  refine ⟨s0, _, s1, hnew, hpush, hused, ?_⟩
  by_cases hz : xs.length = 0
  · rw [if_pos hz]
    have h0 : s1.usedLength = 0 := by rw [hused, hz]; rfl
    simp [BloQue.NumBlocks, (empty_single_block hinv1 h0).1]
  · rw [if_neg hz]
    have hpos : 1 ≤ s1.usedLength := by rw [hused]; omega
    rw [← hused]
    exact (blocks_count hinv1 hpos).1

/-- Claim C12: the capacity options are not enforced.  For every `m`, `k` and every
option list that leaves a block size `≥ 1`, `New`, `NewWithMaxLength(m, ...)` and
`NewWithMaxBlocks(k, ...)` all succeed, and the capped containers give, on every
sequence of `PushBackItem`, `PopBackItem`, `PeekBackItem`, `PopFrontBlock`, `Len`
and `NumBlocks` calls, exactly the answers (or the fault) of the container built
by `New`.  In particular, with the option `BlockSize(bs)`, after `N` pushes the
capped containers have `Len() = N` and `NumBlocks() = ceil(N / bs)`, whatever `m`
and `k` are. -/
theorem caps_not_enforced (m k : Int) (opt : List (Setter α))
    (hbs : 1 ≤ (applyOptions opt newDefault).blockSize) :
    (∃ s sm sk,
      New opt = some s ∧ NewWithMaxLength m opt = some sm ∧
      NewWithMaxBlocks k opt = some sk ∧
      ∀ ops : List (Op α),
        (runOps sm ops).map Prod.fst = (runOps s ops).map Prod.fst ∧
        (runOps sk ops).map Prod.fst = (runOps s ops).map Prod.fst) ∧
    (∀ (bs : Int) (xs : List (Option α)), 1 ≤ bs →
      (∃ s0 sig s1,
        NewWithMaxLength m [BlockSize bs] = some s0 ∧ pushItems s0 xs = some (sig, s1) ∧
        s1.Len = xs.length ∧
        s1.NumBlocks = if xs.length = 0 then 1 else ((xs.length : Int) + bs - 1) / bs) ∧
      (∃ s0 sig s1,
        NewWithMaxBlocks k [BlockSize bs] = some s0 ∧ pushItems s0 xs = some (sig, s1) ∧
        s1.Len = xs.length ∧
        s1.NumBlocks = if xs.length = 0 then 1 else ((xs.length : Int) + bs - 1) / bs)) := by
  constructor
  · obtain ⟨s, ml, mb, hnew, hlen⟩ := NewWithMaxLength_eq m opt hbs
    obtain ⟨s1, ml1, mb1, hnew1, hblk⟩ := NewWithMaxBlocks_eq k opt hbs
    rw [hnew] at hnew1
    simp only [Option.some.injEq] at hnew1
    subst hnew1
    exact ⟨s, _, _, hnew, hlen, hblk, fun ops =>
      ⟨runOps_answers_setCaps ml mb ops s, runOps_answers_setCaps ml1 mb1 ops s⟩⟩
  · intro bs xs h1
    obtain ⟨hl, hb⟩ := capped_eq_New (α := α) m k bs h1
    rw [hl, hb]
    exact ⟨pushItems_counts h1 xs, pushItems_counts h1 xs⟩

/-- Witness for C12: caps 1 and 1 with the option `BlockSize(2)`. -/
theorem caps_not_enforced_witness :
    1 ≤ (applyOptions [BlockSize 2] (newDefault : BloQue Nat)).blockSize ∧
    ((∃ s sm sk,
      New [BlockSize 2] = some s ∧ NewWithMaxLength 1 [BlockSize 2] = some sm ∧
      NewWithMaxBlocks 1 [BlockSize 2] = some sk ∧
      ∀ ops : List (Op Nat),
        (runOps sm ops).map Prod.fst = (runOps s ops).map Prod.fst ∧
        (runOps sk ops).map Prod.fst = (runOps s ops).map Prod.fst) ∧
    (∀ (bs : Int) (xs : List (Option Nat)), 1 ≤ bs →
      (∃ s0 sig s1,
        NewWithMaxLength 1 [BlockSize bs] = some s0 ∧ pushItems s0 xs = some (sig, s1) ∧
        s1.Len = xs.length ∧
        s1.NumBlocks = if xs.length = 0 then 1 else ((xs.length : Int) + bs - 1) / bs) ∧
      (∃ s0 sig s1,
        NewWithMaxBlocks 1 [BlockSize bs] = some s0 ∧ pushItems s0 xs = some (sig, s1) ∧
        s1.Len = xs.length ∧
        s1.NumBlocks = if xs.length = 0 then 1 else ((xs.length : Int) + bs - 1) / bs))) :=
  ⟨by decide, caps_not_enforced 1 1 [BlockSize 2] (by decide)⟩

/-- Concrete run for C12: with a length cap of 1 and with a block cap of 1, three
pushes at block size 2 all go through, leaving `Len() = 3` and
`NumBlocks() = 2`. -/
theorem caps_exceeded_run :
    (∃ s0 sig s1,
      NewWithMaxLength 1 [BlockSize 2] = some s0 ∧
      pushItems s0 [some (1 : Nat), some 2, some 3] = some (sig, s1) ∧
      s1.Len = 3 ∧ s1.NumBlocks = 2) ∧
    (∃ s0 sig s1,
      NewWithMaxBlocks 1 [BlockSize 2] = some s0 ∧
      pushItems s0 [some (1 : Nat), some 2, some 3] = some (sig, s1) ∧
      s1.Len = 3 ∧ s1.NumBlocks = 2) :=
  ⟨⟨⟨2, 0, 0, 0, 0, [[none, none]]⟩, [false, true, false], exampleState, by decide⟩,
    ⟨⟨2, 0, 0, 0, 0, [[none, none]]⟩, [false, true, false], exampleState, by decide⟩⟩

/-- Claim C18, the code at the failing input: `NewWithMaxLength(10, BlockSize(2))`
returns a container whose `maxLength` is 0, not 10, and whose `maxBlocks` is 0,
not 5; `NewWithMaxBlocks(3, BlockSize(2))` returns a container whose `maxBlocks`
is 0, not 3, and whose `maxLength` is 0, not 6. -/
theorem capped_constructors_drop_cap :
    (∃ s : BloQue Nat,
      NewWithMaxLength 10 [BlockSize 2] = some s ∧
      s.maxLength = 0 ∧ s.maxBlocks = 0 ∧ s.maxLength ≠ 10 ∧ s.maxBlocks ≠ 10 / 2) ∧
    (∃ s : BloQue Nat,
      NewWithMaxBlocks 3 [BlockSize 2] = some s ∧
      s.maxBlocks = 0 ∧ s.maxLength = 0 ∧ s.maxBlocks ≠ 3 ∧ s.maxLength ≠ 3 * 2) :=
  ⟨⟨⟨2, 0, 0, 0, 0, [[none, none]]⟩, by decide⟩,
    ⟨⟨2, 0, 0, 0, 0, [[none, none]]⟩, by decide⟩⟩

end Bloque
